import Mathlib

/-! Shallow embedding of the `imagedata-planar` planar bitmap codec
(JavaScript sources under `src/`), together with proofs about it.

Conventions used to model JavaScript semantics:

* Byte buffers (`Uint8Array` contents) are `List Nat`; entries stay below 256
  by construction.  An out-of-range indexed read of a typed array yields
  `undefined`, which JavaScript bitwise operators coerce to `0`; this is
  modelled by `List.getD _ _ 0`.  An out-of-range indexed write to a typed
  array is silently dropped; this is modelled by `List.set`, which is a no-op
  out of range.
* `ImageData.data` is accessed by this code exclusively through 4-byte
  aligned big-endian `DataView.getUint32`/`setUint32` calls, so a pixel
  buffer is modelled as the `List Nat` of its 32-bit pixel values, and the
  byte positions tracked by the bridge reader/writer are divided by 4 at the
  access site.
* `DataView` accesses are bounds checked and throw `RangeError`; fallible
  operations are modelled with `Except String _` (the string carries the
  error kind).
* JavaScript `number` arithmetic on possibly-fractional palette channel
  values is modelled by exact rationals `ℚ`.  All fractional values produced
  by this library are halves or small exact scalings; where the code
  truncates them (`ToInt32` inside `<<`) we take the floor, which matches the
  double-precision evaluation for the dyadic values that actually occur.
-/

set_option maxHeartbeats 1000000

namespace Planar

/-- An RGBA color as stored by `IndexedPalette` (`src/lib/IndexedPalette.js`):
four channel values, here exact rationals standing for JS numbers. -/
structure Color where
  r : ℚ
  g : ℚ
  b : ℚ
  a : ℚ
deriving DecidableEq, Repr

/-- `src/lib/IndexedPalette.js`: a fixed-length table of colors sharing one
`bitsPerChannel`.  `none` entries model JS array holes (colors never set). -/
structure IndexedPalette where
  colors : List (Option Color)
  bitsPerChannel : Nat
deriving DecidableEq, Repr

namespace IndexedPalette

/-- `#maxChannelValue = (1 << bitsPerChannel) - 1`. -/
def maxChannelValue (p : IndexedPalette) : Nat :=
  (1 <<< p.bitsPerChannel) - 1

/-- `new IndexedPalette(colors, { bitsPerChannel })`: `#colors = new Array(colors)`
(an array of holes). -/
def create (colors : Nat) (bitsPerChannel : Nat) : IndexedPalette :=
  ⟨List.replicate colors none, bitsPerChannel⟩

/-- The channel clamping performed by `setColor`:
`Math.max(0, Math.min(x, max))`. -/
def clampChan (m : ℚ) (x : ℚ) : ℚ :=
  max 0 (min x m)

/-- The color record built by `setColor(index, r, g, b, a)`. -/
def clampedColor (m : ℚ) (r g b a : ℚ) : Color :=
  ⟨clampChan m r, clampChan m g, clampChan m b, clampChan m a⟩

/-- `setColor(index, r, g, b, a)` with the alpha argument given explicitly. -/
def setColor (p : IndexedPalette) (index : Nat) (r g b a : ℚ) : IndexedPalette :=
  ⟨p.colors.set index (some (clampedColor (p.maxChannelValue : ℚ) r g b a)),
   p.bitsPerChannel⟩

/-- `setColor(index, r, g, b)` — the omitted alpha argument defaults to the
palette's `#maxChannelValue`. -/
def setColorRGB (p : IndexedPalette) (index : Nat) (r g b : ℚ) : IndexedPalette :=
  p.setColor index r g b (p.maxChannelValue : ℚ)

/-- `getColor(index)` — `undefined` (here `none`) for a hole or
an out-of-range index. -/
def getColor (p : IndexedPalette) (index : Nat) : Option Color :=
  p.colors.getD index none

/-- `get length()`. -/
def length (p : IndexedPalette) : Nat :=
  p.colors.length

/-- `resample(bitsPerChannel)`: a fresh palette of the same length whose set
entries are `setColor(i, c / oldMax * newMax, ...)` for each set entry `c`
(the `forEach` skips holes, so holes stay holes).  Note the scaled values are
passed to `setColor` unrounded. -/
def resample (p : IndexedPalette) (bitsPerChannel : Nat) : IndexedPalette :=
  let resampledMaxValue : Nat := (1 <<< bitsPerChannel) - 1
  ⟨p.colors.map (Option.map (fun color =>
      clampedColor (resampledMaxValue : ℚ)
        (color.r / (p.maxChannelValue : ℚ) * (resampledMaxValue : ℚ))
        (color.g / (p.maxChannelValue : ℚ) * (resampledMaxValue : ℚ))
        (color.b / (p.maxChannelValue : ℚ) * (resampledMaxValue : ℚ))
        (color.a / (p.maxChannelValue : ℚ) * (resampledMaxValue : ℚ)))),
   bitsPerChannel⟩

/-- JS `x << k` applies `ToInt32`, truncating any fractional part.  Channel
values reaching `toValueArray` are clamped to `[0, max]`, hence nonnegative,
so truncation is the floor. -/
def chanTrunc (x : ℚ) : Nat :=
  x.floor.toNat

/-- `toValueArray()` (with its default `alpha = true`): one packed unsigned
integer per color, `(r << 3b) + (g << 2b) + (b << b) + a >>> 0`; the trailing
`>>> 0` reduces the whole sum modulo `2^32`.  Holes are propagated (JS `map`
skips them). -/
def toValueArray (p : IndexedPalette) : List (Option Nat) :=
  let bits := p.bitsPerChannel
  p.colors.map (Option.map (fun color =>
    ((chanTrunc color.r <<< (bits * 3)) + (chanTrunc color.g <<< (bits * 2)) +
      (chanTrunc color.b <<< bits) + chanTrunc color.a) % 2 ^ 32))

/-- `IndexedPalette.fromValueArray(colors, {})` (defaults: 8 bits per channel,
alpha present): each packed value is split into channels and stored with
`setColor`.  JS evaluates `rgba >> k & mask` with 32-bit arithmetic; for
values below `2^32` this extracts the same bit field as the `Nat` expression
used here. -/
def fromValueArray (colors : List Nat) (bitsPerChannel : Nat) : IndexedPalette :=
  let mask := (1 <<< bitsPerChannel) - 1
  ⟨colors.map (fun rgba =>
      some (clampedColor ((1 <<< bitsPerChannel) - 1 : Nat)
        ((rgba >>> (bitsPerChannel * 3)) &&& mask : Nat)
        ((rgba >>> (bitsPerChannel * 2)) &&& mask : Nat)
        ((rgba >>> bitsPerChannel) &&& mask : Nat)
        ((rgba &&& mask : Nat)))),
   bitsPerChannel⟩

/-- `IndexedPalette.monochrome()`: white then black. -/
def monochrome : IndexedPalette :=
  fromValueArray [0xffffffff, 0x000000ff] 8

end IndexedPalette

/-- `src/IndexedPaletteHelpers.js` `getPlaneCountForIndexedPalette`:
`Math.ceil(Math.log(palette.length) / Math.log(2))`, i.e. the ceiling of the
base-2 logarithm, modelled exactly by `Nat.clog`. -/
def getPlaneCountForIndexedPalette (palette : IndexedPalette) : Nat :=
  Nat.clog 2 palette.length

/-- One iteration of the `for (c = 0; c < 32; c++)` loop of
`createEhbPalette`: destructure `getColor(c)` (throws — `none` — when the
color is missing), copy it to entry `c` and store the halved channels —
plain JS division, which is exact, not integer division — at `c + 32`. -/
def createEhbPaletteStep (palette : IndexedPalette)
    (acc : Option IndexedPalette) (c : Nat) : Option IndexedPalette :=
  acc.bind (fun ehb =>
    (palette.getColor c).map (fun color =>
      (ehb.setColorRGB c color.r color.g color.b).setColorRGB (c + 32)
        (color.r / 2) (color.g / 2) (color.b / 2)))

/-- `src/IndexedPaletteHelpers.js` `createEhbPalette`: a fresh 64-entry
palette (8 bits per channel), filled by the loop above. -/
def createEhbPalette (palette : IndexedPalette) : Option IndexedPalette :=
  let ehbPalette := IndexedPalette.create 64 8
  (List.range 32).foldl (createEhbPaletteStep palette) (some ehbPalette)

/-- Cursor state shared by `BitplaneReader` and `BitplaneWriter`
(`#byte`, `#block`, `#line`, `#bit`). -/
structure BitplaneCursor where
  byte : Nat
  block : Nat
  line : Nat
  bit : Nat
deriving DecidableEq, Repr

/-- The geometry configuration passed to the `BitplaneReader`/`BitplaneWriter`
constructors. -/
structure BitplaneGeometry where
  bytesPerBlock : Nat
  blockStep : Nat
  blocksPerLine : Nat
  lineStep : Nat
  planeStep : Nat
  planes : Nat
deriving DecidableEq, Repr

/-- `BitplaneReader.#next()` — also the identical cursor-advance code at the
end of `BitplaneWriter.write()`.  (With `bytesPerBlock = 0`, JS compares
`byte < -1`, which is false, exactly like `byte < 0 - 1 = 0` in `Nat`.) -/
def BitplaneCursor.next (g : BitplaneGeometry) (c : BitplaneCursor) : BitplaneCursor :=
  if c.bit < 7 then
    ⟨c.byte, c.block, c.line, c.bit + 1⟩
  else if c.byte < g.bytesPerBlock - 1 then
    ⟨c.byte + 1, c.block, c.line, 0⟩
  else if c.block < g.blocksPerLine - 1 then
    ⟨0, c.block + 1, c.line, 0⟩
  else
    ⟨0, 0, c.line + 1, 0⟩

/-- `src/lib/BitplaneReader.js` state: buffer, geometry, cursor and the
cached row `#colors` of 8 decoded indices. -/
structure BitplaneReader where
  buf : List Nat
  geom : BitplaneGeometry
  cur : BitplaneCursor
  colors : List Nat
deriving Repr

namespace BitplaneReader

/-- `pos` as computed at the top of `read()`:
`byte + block * blockStep + line * lineStep`. -/
def pos (r : BitplaneReader) : Nat :=
  r.cur.byte + r.cur.block * r.geom.blockStep + r.cur.line * r.geom.lineStep

/-- The row of 8 cached indices recomputed by `read()` when `#bit === 0`:
entry `bitNo` collects, over every plane, bit `7 - bitNo` of the byte at
`pos + plane * planeStep`. -/
def decodeRowColors (buf : List Nat) (g : BitplaneGeometry) (p : Nat) : List Nat :=
  (List.range 8).map (fun bitNo =>
    (List.range g.planes).foldl (fun color plane =>
      let offset := p + plane * g.planeStep
      let byte := buf.getD offset 0
      let bit := (byte >>> (7 - bitNo)) &&& 1
      color ||| (bit <<< plane)) 0)

/-- `read()`: returns the palette index of the next pixel together with the
updated reader.  Out-of-range buffer reads deliver `undefined`, coerced to 0
by the bit operations — no exception is thrown. -/
def read (r : BitplaneReader) : Nat × BitplaneReader :=
  let colors :=
    if r.cur.bit = 0 then decodeRowColors r.buf r.geom r.pos else r.colors
  let color := colors.getD r.cur.bit 0
  (color, ⟨r.buf, r.geom, r.cur.next r.geom, colors⟩)

/-- `advance(pixels)`: steps the cursor forward without reading. -/
def advance (r : BitplaneReader) : Nat → BitplaneReader
  | 0 => r
  | n + 1 => advance ⟨r.buf, r.geom, r.cur.next r.geom, r.colors⟩ n

/-- `BitplaneReader.contiguous(buffer, planes, width, height)`. -/
def contiguous (buffer : List Nat) (planes width height : Nat) : BitplaneReader :=
  let bytesPerPlane := (width >>> 3) * height
  ⟨buffer, ⟨bytesPerPlane, 0, 1, 0, bytesPerPlane, planes⟩, ⟨0, 0, 0, 0⟩, []⟩

/-- `BitplaneReader.line(buffer, planes, width)`. -/
def line (buffer : List Nat) (planes width : Nat) : BitplaneReader :=
  let bytesPerLine := width >>> 3
  ⟨buffer, ⟨bytesPerLine, 0, 1, bytesPerLine * planes, bytesPerLine, planes⟩,
   ⟨0, 0, 0, 0⟩, []⟩

/-- `BitplaneReader.word(buffer, planes)`. -/
def word (buffer : List Nat) (planes : Nat) : BitplaneReader :=
  ⟨buffer, ⟨2, planes * 2, 2, planes * 4, 2, planes⟩, ⟨0, 0, 0, 0⟩, []⟩

end BitplaneReader

/-- `src/lib/BitplaneWriter.js` state. -/
structure BitplaneWriter where
  buf : List Nat
  geom : BitplaneGeometry
  cur : BitplaneCursor
deriving Repr

namespace BitplaneWriter

/-- `pos` as computed at the top of `write()`. -/
def pos (w : BitplaneWriter) : Nat :=
  w.cur.byte + w.cur.block * w.geom.blockStep + w.cur.line * w.geom.lineStep

/-- One iteration of the `for (plane ...)` loop in `write()`: shift the next
low bit out of the color (`bit = color & 1; color >>= 1`) and, when it is
set, OR `1 << (7 - bit)` into the byte at `pos + plane * planeStep`.  The
accumulator carries the buffer and the remaining color bits. -/
def writePlaneStep (p planeStep bitPos : Nat) (acc : List Nat × Nat)
    (plane : Nat) : List Nat × Nat :=
  let bit := acc.2 &&& 1
  let rest := acc.2 >>> 1
  if bit ≠ 0 then
    let offset := p + plane * planeStep
    (acc.1.set offset ((acc.1.getD offset 0) ||| (1 <<< (7 - bitPos))), rest)
  else (acc.1, rest)

/-- `write(color)`: run the plane loop, then advance the cursor (the same
stepping code as `BitplaneReader.#next`).  Out-of-range writes to the
`Uint8Array` are silently dropped (`List.set` is a no-op out of range) — no
exception is thrown. -/
def write (w : BitplaneWriter) (color : Nat) : BitplaneWriter :=
  let p := w.pos
  let buf :=
    ((List.range w.geom.planes).foldl
      (writePlaneStep p w.geom.planeStep w.cur.bit) (w.buf, color)).1
  ⟨buf, w.geom, w.cur.next w.geom⟩

/-- `BitplaneWriter.contiguous(buffer, planes, width, height)`
(`bytesPerPlane = Math.ceil(width / 8) * height`). -/
def contiguous (buffer : List Nat) (planes width height : Nat) : BitplaneWriter :=
  let bytesPerPlane := ((width + 7) / 8) * height
  ⟨buffer, ⟨bytesPerPlane, 0, 1, 0, bytesPerPlane, planes⟩, ⟨0, 0, 0, 0⟩⟩

/-- `BitplaneWriter.line(buffer, planes, width)`
(`bytesPerLine = Math.ceil(width / 8)`). -/
def line (buffer : List Nat) (planes width : Nat) : BitplaneWriter :=
  let bytesPerLine := (width + 7) / 8
  ⟨buffer, ⟨bytesPerLine, 0, 1, bytesPerLine * planes, bytesPerLine, planes⟩,
   ⟨0, 0, 0, 0⟩⟩

/-- `BitplaneWriter.word(buffer, planes)`. -/
def word (buffer : List Nat) (planes : Nat) : BitplaneWriter :=
  ⟨buffer, ⟨2, planes * 2, 2, planes * 4, 2, planes⟩, ⟨0, 0, 0, 0⟩⟩

end BitplaneWriter

/-- An `ImageData` object: width, height and the pixel buffer (modelled as
the list of 32-bit RGBA values, see the header comment). -/
structure ImageData where
  width : Nat
  height : Nat
  data : List Nat
deriving DecidableEq, Repr

/-- `new ImageData(width, height)`: a zero-filled pixel buffer. -/
def ImageData.create (width height : Nat) : ImageData :=
  ⟨width, height, List.replicate (width * height) 0⟩

/-- `src/lib/ImageDataIndexedPaletteReader.js` state.  `#palette` is
`palette.resample(8).toValueArray()`; `#pos` counts bytes and every access is
4-byte aligned. -/
structure ImageDataIndexedPaletteReader where
  palette : List (Option Nat)
  pixels : List Nat
  pos : Nat
deriving Repr

namespace ImageDataIndexedPaletteReader

/-- The constructor. -/
def create (imageData : ImageData) (palette : IndexedPalette) :
    ImageDataIndexedPaletteReader :=
  ⟨(palette.resample 8).toValueArray, imageData.data, 0⟩

/-- `read()`: load the next 32-bit pixel (`DataView.getUint32` throws past
the end), `indexOf` it in the packed palette values (holes are skipped by
`indexOf`), and fail with a `RangeError` when it is absent. -/
def read (r : ImageDataIndexedPaletteReader) :
    Except String (Nat × ImageDataIndexedPaletteReader) :=
  match r.pixels[r.pos / 4]? with
  | none => Except.error "RangeError: getUint32 past the end of the buffer"
  | some color =>
    match r.palette.findIdx? (fun entry => entry == some color) with
    | none => Except.error "RangeError: color not in palette"
    | some index => Except.ok (index, ⟨r.palette, r.pixels, r.pos + 4⟩)

end ImageDataIndexedPaletteReader

/-- `src/lib/ImageDataIndexedPaletteWriter.js` state. -/
structure ImageDataIndexedPaletteWriter where
  palette : List (Option Nat)
  data : List Nat
  pos : Nat
deriving Repr

namespace ImageDataIndexedPaletteWriter

/-- The constructor. -/
def create (imageData : ImageData) (palette : IndexedPalette) :
    ImageDataIndexedPaletteWriter :=
  ⟨(palette.resample 8).toValueArray, imageData.data, 0⟩

/-- `write(color)`: `setUint32(pos, palette[color]); pos += 4`.  An absent
palette entry is `undefined`, which `setUint32` coerces to 0.  (Every write
issued by `decode` is in bounds, so the bounds-checked throw of `setUint32`
is not modelled.) -/
def write (w : ImageDataIndexedPaletteWriter) (color : Nat) :
    ImageDataIndexedPaletteWriter :=
  ⟨w.palette, w.data.set (w.pos / 4) ((w.palette.getD color none).getD 0), w.pos + 4⟩

end ImageDataIndexedPaletteWriter

/-- The three encoding formats of `src/consts.js`. -/
inductive EncodingFormat where
  | contiguous
  | line
  | word
deriving DecidableEq, Repr

/-- The `{ planes, format }` option bag of `encode`/`decode`.  A `none` value
selects the documented default (`getPlaneCountForIndexedPalette(palette)`
resp. `ENCODING_FORMAT_WORD`; the claims below always pass `format`
explicitly, matching the spec's `{format}`). -/
structure BitplaneEncodingOptions where
  planes : Option Nat
  format : EncodingFormat
deriving DecidableEq, Repr

/-- The `writer.write(reader.read())` body of the inner loop of `decode`. -/
def decodeStep (s : ImageDataIndexedPaletteWriter × BitplaneReader) :
    ImageDataIndexedPaletteWriter × BitplaneReader :=
  let (color, reader) := s.2.read
  (s.1.write color, reader)

/-- The inner `for (x = 0; x < width; x++)` loop of `decode`. -/
def decodeRowLoop : Nat → (ImageDataIndexedPaletteWriter × BitplaneReader) →
    ImageDataIndexedPaletteWriter × BitplaneReader
  | 0, s => s
  | x + 1, s => decodeRowLoop x (decodeStep s)

/-- The outer `for (y = 0; y < height; y++)` loop of `decode`: one row of
reads followed by `reader.advance(planeWidth - width)`. -/
def decodeLinesLoop (width planeWidth : Nat) :
    Nat → (ImageDataIndexedPaletteWriter × BitplaneReader) →
    ImageDataIndexedPaletteWriter × BitplaneReader
  | 0, s => s
  | y + 1, s =>
    let s := decodeRowLoop width s
    decodeLinesLoop width planeWidth y (s.1, s.2.advance (planeWidth - width))

/-- `src/decode.js` `decode(buffer, width, height, palette, options)`,
returning the final image pixels together with the final bitplane reader
(exposing the loop-local `reader` lets us state that its buffer is never
written to).  The `Invalid format` throw is unreachable: `EncodingFormat`
has exactly the three valid values. -/
def decodeWithReader (buffer : List Nat) (width height : Nat)
    (palette : IndexedPalette) (options : BitplaneEncodingOptions) :
    List Nat × BitplaneReader :=
  let planes := options.planes.getD (getPlaneCountForIndexedPalette palette)
  let imageData := ImageData.create width height
  let writer := ImageDataIndexedPaletteWriter.create imageData palette
  let planeWidth := ((width + 7) / 8) * 8
  let reader :=
    match options.format with
    | EncodingFormat.contiguous =>
        BitplaneReader.contiguous buffer planes planeWidth height
    | EncodingFormat.line => BitplaneReader.line buffer planes planeWidth
    | EncodingFormat.word => BitplaneReader.word buffer planes
  let s := decodeLinesLoop width planeWidth height (writer, reader)
  (s.1.data, s.2)

/-- `decode`, keeping only the pixels of the produced `ImageData`. -/
def decode (buffer : List Nat) (width height : Nat) (palette : IndexedPalette)
    (options : BitplaneEncodingOptions) : List Nat :=
  (decodeWithReader buffer width height palette options).1

/-- The `while (bytesToRead)` loop of `encodeInternal`
(`src/encode.js`): `writer.write(reader.read())`, `width * height` times. -/
def encodeLoop :
    Nat → (ImageDataIndexedPaletteReader × BitplaneWriter) →
    Except String (ImageDataIndexedPaletteReader × BitplaneWriter)
  | 0, s => Except.ok s
  | n + 1, s =>
    match s.1.read with
    | Except.error e => Except.error e
    | Except.ok (index, reader) => encodeLoop n (reader, s.2.write index)

/-- `src/encode.js` `encodeInternal(buffer, imageData, palette, planes, format)`. -/
def encodeInternal (buffer : List Nat) (imageData : ImageData)
    (palette : IndexedPalette) (planes : Nat) (format : EncodingFormat) :
    Except String (List Nat) :=
  let reader := ImageDataIndexedPaletteReader.create imageData palette
  let writer :=
    match format with
    | EncodingFormat.contiguous =>
        BitplaneWriter.contiguous buffer planes imageData.width imageData.height
    | EncodingFormat.line => BitplaneWriter.line buffer planes imageData.width
    | EncodingFormat.word => BitplaneWriter.word buffer planes
  (encodeLoop (imageData.width * imageData.height) (reader, writer)).map
    (fun s => s.2.buf)

/-- `src/encode.js` `encode(imageData, palette, options)`: reject a width
that is not a multiple of 16 before allocating the output, then encode into
a fresh zero-filled buffer of `width / 8 * height * planes` bytes. -/
def encode (imageData : ImageData) (palette : IndexedPalette)
    (options : BitplaneEncodingOptions) : Except String (List Nat) :=
  let planes := options.planes.getD (getPlaneCountForIndexedPalette palette)
  let bufferSize := imageData.width / 8 * imageData.height * planes
  if imageData.width % 16 ≠ 0 then
    Except.error "Image width must be a multiple of 16"
  else
    encodeInternal (List.replicate bufferSize 0) imageData palette planes
      options.format

/-- `src/compression/packbits.js` `depack(buffer, size)`, written as a
recursion over the source bytes.  A signed control byte `n` is the unsigned
byte `b` (negative iff `b > 128`, with `b = 128` encoding `-128`); running
out of source (`getInt8`/`getUint8` past the end) or writing past the
`size`-byte output (`setUint8` past the end) throws a `RangeError`. -/
def depackGo : List Nat → Nat → Except String (List Nat)
  | _, 0 => Except.ok []
  | [], _ + 1 => Except.error "RangeError: depack read past the end"
  | b :: rest, remaining + 1 =>
    if b = 128 then
      -- control byte −128: no-op
      depackGo rest (remaining + 1)
    else if 128 < b then
      -- control byte n < 0: one data byte repeated (1 − n) = 257 − b times
      match rest with
      | [] => Except.error "RangeError: depack read past the end"
      | b2 :: rest2 =>
        let count := 257 - b
        if remaining + 1 < count then
          Except.error "RangeError: depack wrote past the end"
        else
          (depackGo rest2 (remaining + 1 - count)).map
            (fun out => List.replicate count b2 ++ out)
    else
      -- control byte n ≥ 0: (1 + n) literal bytes
      let count := 1 + b
      if rest.length < count then
        Except.error "RangeError: depack read past the end"
      else if remaining + 1 < count then
        Except.error "RangeError: depack wrote past the end"
      else
        (depackGo (rest.drop count) (remaining + 1 - count)).map
          (fun out => rest.take count ++ out)
termination_by src _ => src.length
decreasing_by
  all_goals simp only [List.length_cons, List.length_drop]
  all_goals omega

/-- `depack(buffer, size)`. -/
def depack (buffer : List Nat) (size : Nat) : Except String (List Nat) :=
  depackGo buffer size

/-- The mutable state of `packLine` (`src/compression/packbits.js`).
`dest` is the output written so far; `cmdBuffer` is the 128-byte scratch
`Uint8Array` (writes at index ≥ 128 are silently dropped, as in JS). -/
structure PackLineState where
  dest : List Nat
  mode : Nat
  cmdBuffer : List Nat
  cmdBufferPos : Nat
  rstart : Nat
  lastByte : Nat
deriving Repr

/-- `PutDump(count)`: control byte `count - 1` then the first `count` bytes
of the command buffer. -/
def putDump (s : PackLineState) (count : Nat) : PackLineState :=
  ⟨s.dest ++ (count - 1) :: s.cmdBuffer.take count, s.mode, s.cmdBuffer,
   s.cmdBufferPos, s.rstart, s.lastByte⟩

/-- `PutRun(count, byte)`: control byte `-(count - 1)` (stored as an unsigned
byte) then the repeated byte. -/
def putRun (s : PackLineState) (count byte : Nat) : PackLineState :=
  ⟨s.dest ++ [(256 - (count - 1)) % 256, byte], s.mode, s.cmdBuffer,
   s.cmdBufferPos, s.rstart, s.lastByte⟩

/-- The `while (rowSize)` loop of `packLine`.  Note the first branch: after
flushing a full 128-byte dump the source executes `break`, abandoning the
rest of the line (the state resets before the `break` are dead code). -/
def packLineLoop : List Nat → PackLineState → PackLineState
  | [], s => s
  | byte :: rest, s =>
    let s : PackLineState :=
      ⟨s.dest, s.mode, s.cmdBuffer.set s.cmdBufferPos byte, s.cmdBufferPos + 1,
       s.rstart, s.lastByte⟩
    if s.mode = 0 then
      if 128 < s.cmdBufferPos then
        let s := putDump s (s.cmdBufferPos - 1)
        ⟨s.dest, s.mode, s.cmdBuffer.set 0 byte, 1, 0, s.lastByte⟩
      else if byte = s.lastByte then
        if 3 ≤ s.cmdBufferPos - s.rstart then
          let s := if 0 < s.rstart then putDump s s.rstart else s
          packLineLoop rest
            ⟨s.dest, 1, s.cmdBuffer, s.cmdBufferPos, s.rstart, byte⟩
        else if s.rstart = 0 then
          packLineLoop rest
            ⟨s.dest, 1, s.cmdBuffer, s.cmdBufferPos, s.rstart, byte⟩
        else
          packLineLoop rest
            ⟨s.dest, s.mode, s.cmdBuffer, s.cmdBufferPos, s.rstart, byte⟩
      else
        packLineLoop rest
          ⟨s.dest, s.mode, s.cmdBuffer, s.cmdBufferPos, s.cmdBufferPos - 1, byte⟩
    else
      if byte ≠ s.lastByte ∨ 128 < s.cmdBufferPos - s.rstart then
        let s := putRun s (s.cmdBufferPos - 1 - s.rstart) s.lastByte
        packLineLoop rest ⟨s.dest, 0, s.cmdBuffer.set 0 byte, 1, 0, byte⟩
      else
        packLineLoop rest
          ⟨s.dest, s.mode, s.cmdBuffer, s.cmdBufferPos, s.rstart, byte⟩

/-- `packLine(source, dest)`, returning the bytes written (its JS return
value is their count).  An empty line would make `rowSize` underflow and the
loop diverge; `pack` never passes one. -/
def packLine (source : List Nat) : List Nat :=
  match source with
  | [] => []
  | byte :: rest =>
    let s := packLineLoop rest
      ⟨[], 0, (List.replicate 128 0).set 0 byte, 1, 0, byte⟩
    if s.mode = 0 then (putDump s s.cmdBufferPos).dest
    else (putRun s (s.cmdBufferPos - s.rstart) s.lastByte).dest

/-- The per-line loop of `pack`: compress `bytesPerLine`-byte slices one by
one, appending each packed line at `pos` in `compressedData` — a buffer of
`planeData.length` bytes, so `compressedData.set` throws a `RangeError` as
soon as the compressed output would exceed the input length. -/
def packGo (capacity : Nat) : Nat → List Nat → List Nat → Except String (List Nat)
  | _, [], out => Except.ok out
  | 0, _ :: _, _ =>
      -- A zero `bytesPerLine` never advances `srcPos`: the JS loop diverges.
      Except.error "diverges: bytesPerLine = 0"
  | bytesPerLine + 1, b :: rest, out =>
    let line := (b :: rest).take (bytesPerLine + 1)
    let packed := packLine line
    if capacity < out.length + packed.length then
      Except.error "RangeError: offset is out of bounds"
    else
      packGo capacity (bytesPerLine + 1) ((b :: rest).drop (bytesPerLine + 1))
        (out ++ packed)
termination_by _ remaining _ => remaining.length
decreasing_by
  simp only [List.drop_succ_cons, List.length_cons, List.length_drop]
  omega

/-- `pack(planeData, bytesPerLine)`. -/
def pack (planeData : List Nat) (bytesPerLine : Nat) : Except String (List Nat) :=
  packGo planeData.length bytesPerLine planeData []

/-- `src/formats/iff/HamReader.js` `#step()`, as a function of the base
palette values (`#colors = palette.toValueArray()`), the total plane count,
the current 32-bit color and the raw index `c` delivered by the underlying
bitplane reader.  `#planes = planes - 2`; `#scale = 255 / 2^#planes` is an
exact dyadic double and `val << k` truncates, so the patched channel value is
the floor of `(c & mask) * 255 / 2^#planes`.  All 32-bit JS results are
represented modulo `2^32`. -/
def hamStep (colors : List Nat) (planes : Nat) (currentColor : Nat) (c : Nat) : Nat :=
  let p := planes - 2
  let mask := (1 <<< p) - 1
  if c ≤ mask then
    colors.getD c 0
  else
    let cmd := c >>> p
    let val := (c &&& mask) * 255 / (1 <<< p)
    if cmd = 1 then (currentColor &&& 0xffff00ff) ||| (val <<< 8)
    else if cmd = 2 then (currentColor &&& 0x00ffffff) ||| (val <<< 24)
    else (currentColor &&& 0xff00ffff) ||| (val <<< 16)

/-- The per-pixel step as worded by the claim: the top 2 bits select a
channel "in the order green, blue, red" (command 1 → green, 2 → blue,
3 → red); used only to exhibit that the code disagrees.  In the packed
RGBA value, red is bits 24-31, green bits 16-23, blue bits 8-15. -/
def hamStepClaimOrder (colors : List Nat) (planes : Nat) (currentColor : Nat)
    (c : Nat) : Nat :=
  let p := planes - 2
  let mask := (1 <<< p) - 1
  if c ≤ mask then
    colors.getD c 0
  else
    let cmd := c >>> p
    let val := (c &&& mask) * 255 / (1 <<< p)
    if cmd = 1 then (currentColor &&& 0xff00ffff) ||| (val <<< 16)
    else if cmd = 2 then (currentColor &&& 0xffff00ff) ||| (val <<< 8)
    else (currentColor &&& 0x00ffffff) ||| (val <<< 24)

/-- `src/formats/iff/IffChunkReader.js` state: the underlying buffer plus the
`DataView` window (`byteOffset`, `byteLength`) and the read position. -/
structure IffChunkReader where
  buf : List Nat
  off : Nat
  len : Nat
  pos : Nat
deriving DecidableEq, Repr

namespace IffChunkReader

/-- The constructor: `new DataView(buffer, byteOffset, byteLength)` throws
when the window overruns the buffer. -/
def create (buf : List Nat) (byteOffset byteLength : Nat) :
    Except String IffChunkReader :=
  if buf.length < byteOffset + byteLength then
    Except.error "RangeError: invalid DataView bounds"
  else
    Except.ok ⟨buf, byteOffset, byteLength, 0⟩

/-- `eof()`: `#pos === #view.byteLength`. -/
def eof (r : IffChunkReader) : Bool :=
  r.pos == r.len

/-- `readUint32()`: 4 bytes big endian, bounds checked against the window. -/
def readUint32 (r : IffChunkReader) : Except String (Nat × IffChunkReader) :=
  if r.len < r.pos + 4 then
    Except.error "RangeError: getUint32 past the end"
  else
    Except.ok
      ((r.buf.getD (r.off + r.pos) 0) <<< 24 + (r.buf.getD (r.off + r.pos + 1) 0) <<< 16 +
        (r.buf.getD (r.off + r.pos + 2) 0) <<< 8 + r.buf.getD (r.off + r.pos + 3) 0,
       ⟨r.buf, r.off, r.len, r.pos + 4⟩)

/-- `readBytes(length)`: `buffer.slice(byteOffset + pos, byteOffset + pos +
length)` — sliced on the *underlying* buffer and clamped, not bounds checked;
the position advances by the number of bytes actually obtained. -/
def readBytes (r : IffChunkReader) (length : Nat) : List Nat × IffChunkReader :=
  let bytes := (r.buf.take (r.off + r.pos + length)).drop (r.off + r.pos)
  (bytes, ⟨r.buf, r.off, r.len, r.pos + bytes.length⟩)

/-- An IFF chunk as returned by `readChunk`: tag bytes (`readString(4)`
decodes them as ASCII), payload length, and the payload-scoped sub-reader. -/
structure Chunk where
  id : List Nat
  length : Nat
  reader : IffChunkReader
deriving DecidableEq, Repr

/-- `readChunk()`: tag, big-endian length, a sub-reader over exactly `length`
bytes starting at the current position, `pos += length`; then, if the
position is odd and not at the end of the window, consume one pad byte only
when it is zero (`getUint8` on the probe is bounds checked). -/
def readChunk (r : IffChunkReader) : Except String (Chunk × IffChunkReader) :=
  let (id, r) := r.readBytes 4
  match r.readUint32 with
  | Except.error e => Except.error e
  | Except.ok (length, r) =>
    let dataStart := r.off + r.pos
    match IffChunkReader.create r.buf dataStart length with
    | Except.error e => Except.error e
    | Except.ok sub =>
      let r : IffChunkReader := ⟨r.buf, r.off, r.len, r.pos + length⟩
      if r.pos % 2 = 1 ∧ ¬r.pos = r.len then
        if r.len < r.pos + 1 then
          Except.error "RangeError: getUint8 past the end"
        else if r.buf.getD (r.off + r.pos) 0 = 0 then
          Except.ok (⟨id, length, sub⟩, ⟨r.buf, r.off, r.len, r.pos + 1⟩)
        else
          Except.ok (⟨id, length, sub⟩, r)
      else
        Except.ok (⟨id, length, sub⟩, r)

end IffChunkReader

/-! Reference quantities used to reason about the bitplane cursor: the cursor
after `n` pixel steps, the byte position it addresses, and the byte/bit cell
a given pixel and plane live in. -/

/-- The cursor reached after `n` steps of `BitplaneCursor.next` from the
initial all-zero cursor (proved below): `bit` counts pixels mod 8, `byte`
bytes inside a block, `block` blocks inside a line, `line` lines. -/
def cursorAt (g : BitplaneGeometry) (n : Nat) : BitplaneCursor :=
  ⟨n / 8 % g.bytesPerBlock, n / 8 / g.bytesPerBlock % g.blocksPerLine,
   n / 8 / g.bytesPerBlock / g.blocksPerLine, n % 8⟩

/-- The `pos` value `read()`/`write()` compute at pixel `n`. -/
def posAt (g : BitplaneGeometry) (n : Nat) : Nat :=
  (cursorAt g n).byte + (cursorAt g n).block * g.blockStep +
    (cursorAt g n).line * g.lineStep

/-- The byte offset holding plane `q`'s bit of pixel `n` (the bit position
inside that byte is `7 - n % 8`). -/
def cellOffset (g : BitplaneGeometry) (n q : Nat) : Nat :=
  posAt g n + q * g.planeStep

/-- Bit `j` of the byte at offset `o` of a buffer. -/
def bitGet (buf : List Nat) (o j : Nat) : Nat :=
  (buf.getD o 0 >>> j) &&& 1

/-- The palette index the bitplane reader delivers for pixel `n` of a buffer
(proved below): entry `n % 8` of the cached row decoded at `posAt g n`. -/
def colorAt (buf : List Nat) (g : BitplaneGeometry) (n : Nat) : Nat :=
  (BitplaneReader.decodeRowColors buf g (posAt g n)).getD (n % 8) 0

/-- Feeding a list of palette indices to the bitplane writer, one `write()`
per pixel. -/
def BitplaneWriter.writeAll (w : BitplaneWriter) (idxs : List Nat) : BitplaneWriter :=
  idxs.foldl BitplaneWriter.write w

/-- The index `ImageDataIndexedPaletteReader.read` resolves a pixel value to
(meaningful when the lookup succeeds). -/
def lookupIdx (palette : List (Option Nat)) (v : Nat) : Nat :=
  (palette.findIdx? (fun entry => entry == some v)).getD 0

/-- The 16-pixel sequence asserted by the `0xAA, 0x00` decoding claim:
black/white strictly alternating, starting black. -/
def claimedAlternating16 : List Nat :=
  (List.range 16).map (fun i => if i % 2 = 0 then 0x000000ff else 0xffffffff)

/-- A 32-color, 8-bit palette whose first entry is `(r,g,b,a) = (3,5,7,100)`
(odd channels and a non-opaque alpha); input for the Extra-Half-Brite
counterexample. -/
def ehbCounterPalette : IndexedPalette :=
  IndexedPalette.fromValueArray (0x03050764 :: List.replicate 31 0) 8

/-- A single-color 8-bit palette holding `(128, 0, 0, 255)`; input for the
`resample` rounding counterexample. -/
def resampleCounterPalette : IndexedPalette :=
  IndexedPalette.fromValueArray [0x800000ff] 8

/-- A packed 32-bit RGBA value from its four 8-bit channels (red in the top
byte, as produced by `toValueArray` for an 8-bit palette). -/
def pack4 (r g b a : Nat) : Nat :=
  r * 2 ^ 24 + g * 2 ^ 16 + b * 2 ^ 8 + a

/-- A 16×1 black/white pixel row used to witness the encode/decode
round trip. -/
def roundtripPixels16 : List Nat :=
  [0xffffffff, 0x000000ff, 0x000000ff, 0xffffffff,
   0xffffffff, 0xffffffff, 0x000000ff, 0x000000ff,
   0x000000ff, 0xffffffff, 0x000000ff, 0xffffffff,
   0xffffffff, 0x000000ff, 0xffffffff, 0x000000ff]

/-! Arithmetic helpers about division with a symbolic divisor. -/

theorem succ_mod_div_of_lt {m B : Nat} (h : m % B + 1 < B) :
    (m + 1) % B = m % B + 1 ∧ (m + 1) / B = m / B := by
  have hB : 0 < B := by omega
  have hd := Nat.div_add_mod m B
  have hsplit : m + 1 = B * (m / B) + (m % B + 1) := by
    rw [← Nat.add_assoc, hd]
  constructor
  · rw [hsplit, Nat.mul_add_mod, Nat.mod_eq_of_lt h]
  · rw [hsplit, Nat.mul_add_div hB, Nat.div_eq_of_lt h, Nat.add_zero]

theorem succ_mod_div_of_eq {m B : Nat} (hB : 0 < B) (h : m % B + 1 = B) :
    (m + 1) % B = 0 ∧ (m + 1) / B = m / B + 1 := by
  have hd := Nat.div_add_mod m B
  have hm : m + 1 = B * (m / B + 1) := by
    calc m + 1 = (B * (m / B) + m % B) + 1 := by rw [hd]
    _ = B * (m / B) + (m % B + 1) := by ring
    _ = B * (m / B) + B := by rw [h]
    _ = B * (m / B + 1) := by ring
  constructor
  · rw [hm, Nat.mul_mod_right]
  · rw [hm, Nat.mul_div_cancel_left _ hB]

theorem euclid_unique {B a b x y : Nat} (ha : a < B) (hb : b < B)
    (h : a + B * x = b + B * y) : a = b ∧ x = y := by
  have hB : 0 < B := by omega
  have h1 : (a + B * x) % B = (b + B * y) % B := by rw [h]
  rw [Nat.add_mul_mod_self_left, Nat.add_mul_mod_self_left,
    Nat.mod_eq_of_lt ha, Nat.mod_eq_of_lt hb] at h1
  subst h1
  refine ⟨rfl, ?_⟩
  have h2 : B * x = B * y := Nat.add_left_cancel h
  exact Nat.eq_of_mul_eq_mul_left hB h2

/-! The cursor really is a pixel counter. -/

theorem cursorAt_zero (g : BitplaneGeometry) : cursorAt g 0 = ⟨0, 0, 0, 0⟩ := by
  simp [cursorAt]

theorem cursorAt_next (g : BitplaneGeometry) (hB : 0 < g.bytesPerBlock)
    (hL : 0 < g.blocksPerLine) (n : Nat) :
    (cursorAt g n).next g = cursorAt g (n + 1) := by
  have h8 : n % 8 < 8 := Nat.mod_lt _ (by omega)
  unfold cursorAt BitplaneCursor.next
  dsimp only
  by_cases hbit : n % 8 < 7
  · have h1 : (n + 1) % 8 = n % 8 + 1 := by omega
    have h2 : (n + 1) / 8 = n / 8 := by omega
    simp only [hbit, if_true, h1, h2]
  · have hb7 : (n + 1) % 8 = 0 := by omega
    have hdiv : (n + 1) / 8 = n / 8 + 1 := by omega
    simp only [hbit, if_false, hb7, hdiv]
    by_cases hbyte : n / 8 % g.bytesPerBlock < g.bytesPerBlock - 1
    · obtain ⟨e1, e2⟩ :=
        succ_mod_div_of_lt (m := n / 8) (B := g.bytesPerBlock) (by omega)
      simp only [hbyte, if_true, e1, e2]
    · have hEq : n / 8 % g.bytesPerBlock + 1 = g.bytesPerBlock := by
        have := Nat.mod_lt (n / 8) hB
        omega
      obtain ⟨e1, e2⟩ := succ_mod_div_of_eq hB hEq
      simp only [hbyte, if_false, e1, e2]
      by_cases hblock :
          n / 8 / g.bytesPerBlock % g.blocksPerLine < g.blocksPerLine - 1
      · obtain ⟨f1, f2⟩ :=
          succ_mod_div_of_lt (m := n / 8 / g.bytesPerBlock)
            (B := g.blocksPerLine) (by omega)
        simp only [hblock, if_true, f1, f2]
      · have hEq2 :
            n / 8 / g.bytesPerBlock % g.blocksPerLine + 1 = g.blocksPerLine := by
          have := Nat.mod_lt (n / 8 / g.bytesPerBlock) hL
          omega
        obtain ⟨f1, f2⟩ := succ_mod_div_of_eq hL hEq2
        simp only [hblock, if_false, f1, f2]

theorem posAt_congr (g : BitplaneGeometry) {n m : Nat} (h : n / 8 = m / 8) :
    posAt g n = posAt g m := by
  unfold posAt cursorAt
  dsimp only
  rw [h]

/-! Single-bit access helpers. -/

theorem bitGet_eq_testBit (buf : List Nat) (o j : Nat) :
    bitGet buf o j = ((buf.getD o 0).testBit j).toNat := by
  unfold bitGet
  rw [Nat.testBit_to_div_mod, Nat.shiftRight_eq_div_pow, Nat.and_one_is_mod]
  rcases Nat.mod_two_eq_zero_or_one (buf.getD o 0 / 2 ^ j) with h | h <;>
    rw [h] <;> simp

theorem bitGet_le_one (buf : List Nat) (o j : Nat) : bitGet buf o j ≤ 1 := by
  rw [bitGet_eq_testBit]
  rcases (buf.getD o 0).testBit j with _ | _ <;> simp

theorem bitGet_set_or {buf : List Nat} (o jj : Nat) (ho : o < buf.length)
    (oo j : Nat) :
    bitGet (buf.set o ((buf.getD o 0) ||| (1 <<< jj))) oo j =
      if oo = o ∧ j = jj then 1 else bitGet buf oo j := by
  have hpow : (1 : Nat) <<< jj = 2 ^ jj := by
    rw [Nat.shiftLeft_eq, Nat.one_mul]
  by_cases hoo : oo = o
  · subst hoo
    have hget : (buf.set oo ((buf.getD oo 0) ||| (1 <<< jj))).getD oo 0 =
        (buf.getD oo 0) ||| (1 <<< jj) := by
      simp [List.getD_eq_getElem?_getD, List.getElem?_set_self ho]
    by_cases hj : j = jj
    · subst hj
      rw [if_pos ⟨rfl, rfl⟩, bitGet_eq_testBit, hget, hpow, Nat.testBit_or,
        Nat.testBit_two_pow]
      simp
    · rw [if_neg (fun hc => hj hc.2), bitGet_eq_testBit, hget, hpow,
        Nat.testBit_or, Nat.testBit_two_pow, bitGet_eq_testBit]
      have hd : decide (jj = j) = false := by simp [Ne.symm hj]
      rw [hd]
      simp
  · have hget : (buf.set o ((buf.getD o 0) ||| (1 <<< jj))).getD oo 0 =
        buf.getD oo 0 := by
      simp [List.getD_eq_getElem?_getD, List.getElem?_set_ne (fun h => hoo h.symm)]
    rw [if_neg (fun hc => hoo hc.1)]
    simp only [bitGet, hget]

theorem or_one_of_le_one {x : Nat} (hx : x ≤ 1) : x ||| 1 = 1 := by
  interval_cases x <;> rfl

/-! Reconstructing a palette index from its plane bits. -/

theorem foldl_or_bits {v : Nat} (f : Nat → Nat) (P : Nat)
    (hf : ∀ q, q < P → f q = (v >>> q) &&& 1) :
    (List.range P).foldl (fun color plane => color ||| (f plane <<< plane)) 0 =
      v % 2 ^ P := by
  induction P with
  | zero => simp [Nat.mod_one]
  | succ P ih =>
    rw [List.range_succ, List.foldl_append]
    rw [ih (fun q hq => hf q (by omega))]
    simp only [List.foldl_cons, List.foldl_nil]
    rw [hf P (by omega)]
    rw [Nat.shiftRight_eq_div_pow, Nat.and_one_is_mod, Nat.shiftLeft_eq]
    rw [Nat.mod_pow_succ]
    have hlt : v % 2 ^ P < 2 ^ P := Nat.mod_lt _ (Nat.two_pow_pos P)
    rw [Nat.add_comm (v % 2 ^ P), Nat.mul_add_lt_is_or hlt,
      Nat.lor_comm, Nat.mul_comm (2 ^ P)]

/-! One `read()` call of a reader that has consumed `k` pixels.  The cached
`#colors` row `cl` only has to be correct when `k` is not at a row boundary;
at a boundary `read()` recomputes it. -/

theorem read_step {buf : List Nat} {g : BitplaneGeometry} {k : Nat}
    {cl : List Nat}
    (hcl : k % 8 ≠ 0 → cl = BitplaneReader.decodeRowColors buf g (posAt g k))
    (hB : 0 < g.bytesPerBlock) (hL : 0 < g.blocksPerLine) :
    BitplaneReader.read ⟨buf, g, cursorAt g k, cl⟩ =
      (colorAt buf g k,
        ⟨buf, g, cursorAt g (k + 1),
          BitplaneReader.decodeRowColors buf g (posAt g k)⟩) := by
  unfold BitplaneReader.read
  dsimp only
  have hpos : BitplaneReader.pos ⟨buf, g, cursorAt g k, cl⟩ = posAt g k := rfl
  have hbit : (cursorAt g k).bit = k % 8 := rfl
  rw [hpos, hbit]
  by_cases h0 : k % 8 = 0
  · rw [if_pos h0, cursorAt_next g hB hL]
    rfl
  · rw [if_neg h0, hcl h0, cursorAt_next g hB hL]
    rfl

/-- The recomputed cache row stays valid for the next pixel as long as the
next pixel is not at a row boundary. -/
theorem cache_step {buf : List Nat} (g : BitplaneGeometry) {k : Nat}
    (h1 : (k + 1) % 8 ≠ 0) :
    BitplaneReader.decodeRowColors buf g (posAt g k) =
      BitplaneReader.decodeRowColors buf g (posAt g (k + 1)) := by
  have h2 : (k + 1) / 8 = k / 8 := by omega
  rw [posAt_congr g h2]

/-! The plane loop of one `write()` call, characterised bit by bit. -/

theorem writePlaneStep_eq (p S t : Nat) (acc : List Nat × Nat) (plane : Nat) :
    BitplaneWriter.writePlaneStep p S t acc plane =
      if acc.2 &&& 1 ≠ 0 then
        (acc.1.set (p + plane * S)
          ((acc.1.getD (p + plane * S) 0) ||| (1 <<< (7 - t))), acc.2 >>> 1)
      else (acc.1, acc.2 >>> 1) := rfl

theorem write_fold_spec (buf : List Nat) (p S t color : Nat) (P : Nat)
    (hdist : ∀ q1 q2, q1 < P → q2 < P → p + q1 * S = p + q2 * S → q1 = q2)
    (hbnd : ∀ q, q < P → p + q * S < buf.length) :
    ((List.range P).foldl (BitplaneWriter.writePlaneStep p S t)
        (buf, color)).2 = color >>> P ∧
    ((List.range P).foldl (BitplaneWriter.writePlaneStep p S t)
        (buf, color)).1.length = buf.length ∧
    (∀ q, q < P →
      bitGet ((List.range P).foldl (BitplaneWriter.writePlaneStep p S t)
          (buf, color)).1 (p + q * S) (7 - t) =
        bitGet buf (p + q * S) (7 - t) ||| ((color >>> q) &&& 1)) ∧
    (∀ o j, (∀ q, q < P → ¬(o = p + q * S ∧ j = 7 - t)) →
      bitGet ((List.range P).foldl (BitplaneWriter.writePlaneStep p S t)
          (buf, color)).1 o j = bitGet buf o j) := by
  induction P with
  | zero =>
    refine ⟨by simp, by simp, ?_, ?_⟩
    · intro q hq; omega
    · intro o j _; simp
  | succ P ih =>
    obtain ⟨h2, hlen, hset, hpres⟩ :=
      ih (fun q1 q2 hq1 hq2 he => hdist q1 q2 (by omega) (by omega) he)
        (fun q hq => hbnd q (by omega))
    rw [List.range_succ, List.foldl_append, List.foldl_cons, List.foldl_nil,
      writePlaneStep_eq, h2]
    have hoP : ∀ q, q < P → p + q * S ≠ p + P * S := by
      intro q hq he
      have := hdist q P (by omega) (by omega) he
      omega
    have hb1 : (color >>> P) &&& 1 ≤ 1 := by
      rw [Nat.and_one_is_mod]
      omega
    have hshift : (color >>> P) >>> 1 = color >>> (P + 1) := by
      rw [Nat.shiftRight_add]
    by_cases hbit : (color >>> P) &&& 1 ≠ 0
    · rw [if_pos hbit]
      dsimp only
      have hoin : p + P * S <
          ((List.range P).foldl (BitplaneWriter.writePlaneStep p S t)
            (buf, color)).1.length := by
        rw [hlen]; exact hbnd P (by omega)
      refine ⟨hshift, ?_, ?_, ?_⟩
      · rw [List.length_set, hlen]
      · intro q hq
        rw [bitGet_set_or _ _ hoin]
        by_cases hqP : q = P
        · subst hqP
          rw [if_pos ⟨rfl, rfl⟩]
          have : (color >>> q) &&& 1 = 1 := by omega
          rw [this, or_one_of_le_one (bitGet_le_one _ _ _)]
        · rw [if_neg (fun hc => hoP q (by omega) hc.1)]
          exact hset q (by omega)
      · intro o j hno
        rw [bitGet_set_or _ _ hoin]
        rw [if_neg (hno P (by omega))]
        exact hpres o j (fun q hq => hno q (by omega))
    · rw [if_neg hbit]
      dsimp only
      have hbit0 : (color >>> P) &&& 1 = 0 := by omega
      refine ⟨hshift, hlen, ?_, ?_⟩
      · intro q hq
        by_cases hqP : q = P
        · subst hqP
          rw [hbit0, Nat.or_zero]
          exact hpres _ _ (fun q' hq' hc => hoP q' hq' hc.1.symm)
        · exact hset q (by omega)
      · intro o j hno
        exact hpres o j (fun q hq => hno q (by omega))

/-- `write()` on a writer whose cursor is at pixel `k`, with the cursor fields
spelled out. -/
theorem write_cursorAt_eq (buf : List Nat) (g : BitplaneGeometry) (k color : Nat) :
    BitplaneWriter.write ⟨buf, g, cursorAt g k⟩ color =
      ⟨((List.range g.planes).foldl
          (BitplaneWriter.writePlaneStep (posAt g k) g.planeStep (k % 8))
          (buf, color)).1,
       g, (cursorAt g k).next g⟩ := rfl

theorem bitGet_replicate_zero (Z o j : Nat) :
    bitGet (List.replicate Z 0) o j = 0 := by
  unfold bitGet
  have h : (List.replicate Z 0).getD o 0 = 0 := by
    rcases Nat.lt_or_ge o Z with h | h
    · simp [List.getD_eq_getElem?_getD, List.getElem?_replicate, h]
    · rw [List.getD_eq_getElem?_getD, List.getElem?_eq_none]
      · rfl
      · simpa using h
  rw [h]
  simp

/-- Running the writer over a whole index list: every cell of every pixel of
the image ends up holding exactly that pixel's index bit.  `idxsAll` is the
complete list; the writer starts at pixel `k` holding the cells of pixels
below `k` and zeros elsewhere. -/
theorem writeAll_bits {g : BitplaneGeometry} {Z : Nat}
    (hB : 0 < g.bytesPerBlock) (hL : 0 < g.blocksPerLine)
    (idxsAll : List Nat)
    (hinj : ∀ n1 q1 n2 q2, n1 < idxsAll.length → q1 < g.planes →
      n2 < idxsAll.length → q2 < g.planes →
      cellOffset g n1 q1 = cellOffset g n2 q2 → n1 % 8 = n2 % 8 →
      n1 = n2 ∧ q1 = q2)
    (hbnd : ∀ n q, n < idxsAll.length → q < g.planes → cellOffset g n q < Z) :
    ∀ (rest : List Nat) (k : Nat) (buf : List Nat),
      rest = idxsAll.drop k →
      buf.length = Z →
      (∀ n q, n < idxsAll.length → q < g.planes →
        bitGet buf (cellOffset g n q) (7 - n % 8) =
          if n < k then (idxsAll.getD n 0 >>> q) &&& 1 else 0) →
      (BitplaneWriter.writeAll ⟨buf, g, cursorAt g k⟩ rest).buf.length = Z ∧
      (∀ n q, n < idxsAll.length → q < g.planes →
        bitGet (BitplaneWriter.writeAll ⟨buf, g, cursorAt g k⟩ rest).buf
            (cellOffset g n q) (7 - n % 8) =
          if n < k + rest.length then (idxsAll.getD n 0 >>> q) &&& 1 else 0) := by
  intro rest
  induction rest with
  | nil =>
    intro k buf hrest hlen hpast
    have hk : idxsAll.length ≤ k := by
      by_contra hk
      have := List.drop_eq_nil_iff.mp hrest.symm
      omega
    simp only [BitplaneWriter.writeAll, List.foldl_nil, List.length_nil,
      Nat.add_zero]
    exact ⟨hlen, fun n q hn hq => hpast n q hn hq⟩
  | cons c rest ih =>
    intro k buf hrest hlen hpast
    have hk : k < idxsAll.length := by
      by_contra hk
      rw [List.drop_eq_nil_of_le (by omega)] at hrest
      simp at hrest
    have hc : idxsAll.getD k 0 = c := by
      have h0 : (idxsAll.drop k)[0]? = idxsAll[k]? := by
        rw [List.getElem?_drop, Nat.add_zero]
      rw [← hrest] at h0
      simp at h0
      rw [List.getD_eq_getElem?_getD, ← h0]
      rfl
    have hrest' : rest = idxsAll.drop (k + 1) := by
      have : idxsAll.drop (k + 1) = (idxsAll.drop k).drop 1 := by
        rw [List.drop_drop, Nat.add_comm]
      rw [this, ← hrest, List.drop_succ_cons, List.drop_zero]
    -- one write
    have hAll : BitplaneWriter.writeAll ⟨buf, g, cursorAt g k⟩ (c :: rest) =
        BitplaneWriter.writeAll (BitplaneWriter.write ⟨buf, g, cursorAt g k⟩ c)
          rest := rfl
    obtain ⟨hf2, hflen, hfset, hfpres⟩ :=
      write_fold_spec buf (posAt g k) g.planeStep (k % 8) c g.planes
        (fun q1 q2 hq1 hq2 he =>
          (hinj k q1 k q2 hk hq1 hk hq2 he rfl).2)
        (fun q hq => by rw [hlen]; exact hbnd k q hk hq)
    rw [hAll, write_cursorAt_eq, cursorAt_next g hB hL]
    have hnewpast : ∀ n q, n < idxsAll.length → q < g.planes →
        bitGet ((List.range g.planes).foldl
            (BitplaneWriter.writePlaneStep (posAt g k) g.planeStep (k % 8))
            (buf, c)).1 (cellOffset g n q) (7 - n % 8) =
          if n < k + 1 then (idxsAll.getD n 0 >>> q) &&& 1 else 0 := by
      intro n q hn hq
      by_cases hnk : n = k
      · subst hnk
        have hp0 : bitGet buf (cellOffset g n q) (7 - n % 8) = 0 := by
          rw [hpast n q hn hq, if_neg (by omega)]
        unfold cellOffset at hp0 ⊢
        rw [hfset q hq, hp0, Nat.zero_or, if_pos (by omega), hc]
      · have hne : ∀ q2, q2 < g.planes →
            ¬(cellOffset g n q = posAt g k + q2 * g.planeStep ∧
              7 - n % 8 = 7 - k % 8) := by
          intro q2 hq2 ⟨he, hbit⟩
          have hn8 : n % 8 < 8 := Nat.mod_lt _ (by omega)
          have hk8 : k % 8 < 8 := Nat.mod_lt _ (by omega)
          have hmm : n % 8 = k % 8 := by omega
          have := hinj n q k q2 hn hq hk hq2 he hmm
          omega
        have := hfpres (cellOffset g n q) (7 - n % 8) hne
        rw [this, hpast n q hn hq]
        by_cases hlt : n < k
        · rw [if_pos hlt, if_pos (by omega)]
        · rw [if_neg hlt, if_neg (by omega)]
    obtain ⟨h1, h2⟩ := ih (k + 1)
      ((List.range g.planes).foldl
        (BitplaneWriter.writePlaneStep (posAt g k) g.planeStep (k % 8))
        (buf, c)).1
      hrest' (by rw [hflen, hlen]) hnewpast
    refine ⟨h1, fun n q hn hq => ?_⟩
    rw [h2 n q hn hq]
    have harith : k + 1 + rest.length = k + (c :: rest).length := by
      simp
      omega
    rw [harith]

/-- The index the bitplane reader recovers for pixel `n` is the value whose
plane bits sit in pixel `n`'s cells (reduced modulo `2 ^ planes`). -/
theorem colorAt_eq_of_bits {buf : List Nat} {g : BitplaneGeometry} {n v : Nat}
    (hbits : ∀ q, q < g.planes →
      bitGet buf (cellOffset g n q) (7 - n % 8) = (v >>> q) &&& 1) :
    colorAt buf g n = v % 2 ^ g.planes := by
  unfold colorAt BitplaneReader.decodeRowColors
  have h8 : n % 8 < 8 := Nat.mod_lt _ (by omega)
  rw [List.getD_eq_getElem?_getD, List.getElem?_map, List.getElem?_range h8]
  dsimp only [Option.map_some', Option.getD_some]
  exact foldl_or_bits _ g.planes (fun q hq => hbits q hq)

/-! The three preset geometries: explicit cell offsets, bounds and
injectivity. -/

theorem contiguous_cell (P planes : Nat) (n q : Nat) (hn : n < 8 * P) :
    cellOffset ⟨P, 0, 1, 0, P, planes⟩ n q = n / 8 + q * P := by
  unfold cellOffset posAt cursorAt
  dsimp only
  have h1 : n / 8 < P := by omega
  rw [Nat.mod_eq_of_lt h1, Nat.div_eq_of_lt h1]
  simp

theorem contiguous_bound (P planes n q : Nat) (hn : n < 8 * P) (hq : q < planes) :
    n / 8 + q * P < P * planes := by
  have h1 : n / 8 < P := by omega
  calc n / 8 + q * P < P + q * P := Nat.add_lt_add_right h1 _
  _ = (q + 1) * P := by ring
  _ ≤ planes * P := Nat.mul_le_mul_right _ hq
  _ = P * planes := Nat.mul_comm _ _

theorem contiguous_inj (P planes : Nat) {n1 q1 n2 q2 : Nat}
    (hn1 : n1 < 8 * P) (hq1 : q1 < planes) (hn2 : n2 < 8 * P) (hq2 : q2 < planes)
    (he : n1 / 8 + q1 * P = n2 / 8 + q2 * P) (hm : n1 % 8 = n2 % 8) :
    n1 = n2 ∧ q1 = q2 := by
  have h1 : n1 / 8 < P := by omega
  have h2 : n2 / 8 < P := by omega
  rw [Nat.mul_comm q1 P, Nat.mul_comm q2 P] at he
  obtain ⟨hd, hqq⟩ := euclid_unique h1 h2 he
  exact ⟨by omega, hqq⟩

theorem line_cell (bpl planes : Nat) (n q : Nat) :
    cellOffset ⟨bpl, 0, 1, bpl * planes, bpl, planes⟩ n q =
      n / 8 % bpl + bpl * (planes * (n / 8 / bpl) + q) := by
  unfold cellOffset posAt cursorAt
  dsimp only
  rw [Nat.mod_one, Nat.div_one]
  ring

theorem line_bound (bpl planes hgt n q : Nat) (hn : n < 8 * (bpl * hgt))
    (hq : q < planes) (hbpl : 0 < bpl) :
    n / 8 % bpl + bpl * (planes * (n / 8 / bpl) + q) < bpl * planes * hgt := by
  have h1 : n / 8 % bpl < bpl := Nat.mod_lt _ hbpl
  have h2 : n / 8 < bpl * hgt := by omega
  have hy : n / 8 / bpl < hgt := by
    rw [Nat.div_lt_iff_lt_mul hbpl]
    calc n / 8 < bpl * hgt := h2
    _ = hgt * bpl := Nat.mul_comm _ _
  have hgt1 : 1 ≤ hgt := Nat.lt_of_le_of_lt (Nat.zero_le _) hy
  have h3 : planes * (n / 8 / bpl) ≤ planes * (hgt - 1) :=
    Nat.mul_le_mul_left _ (by omega)
  have h4 : planes * (hgt - 1) + planes = planes * hgt := by
    have hh : hgt - 1 + 1 = hgt := by omega
    calc planes * (hgt - 1) + planes = planes * (hgt - 1 + 1) := by ring
    _ = planes * hgt := by rw [hh]
  have h5 : planes * (n / 8 / bpl) + q + 1 ≤ planes * hgt := by
    calc planes * (n / 8 / bpl) + q + 1
        = planes * (n / 8 / bpl) + (q + 1) := by ring
    _ ≤ planes * (hgt - 1) + planes := Nat.add_le_add h3 hq
    _ = planes * hgt := h4
  calc n / 8 % bpl + bpl * (planes * (n / 8 / bpl) + q)
      < bpl + bpl * (planes * (n / 8 / bpl) + q) := Nat.add_lt_add_right h1 _
  _ = bpl * (planes * (n / 8 / bpl) + q + 1) := by ring
  _ ≤ bpl * (planes * hgt) := Nat.mul_le_mul_left _ h5
  _ = bpl * planes * hgt := by ring

theorem line_inj (bpl planes : Nat) {n1 q1 n2 q2 : Nat} (hbpl : 0 < bpl)
    (hq1 : q1 < planes) (hq2 : q2 < planes)
    (he : n1 / 8 % bpl + bpl * (planes * (n1 / 8 / bpl) + q1) =
          n2 / 8 % bpl + bpl * (planes * (n2 / 8 / bpl) + q2))
    (hm : n1 % 8 = n2 % 8) : n1 = n2 ∧ q1 = q2 := by
  have h1 : n1 / 8 % bpl < bpl := Nat.mod_lt _ hbpl
  have h2 : n2 / 8 % bpl < bpl := Nat.mod_lt _ hbpl
  obtain ⟨ha, hb⟩ := euclid_unique h1 h2 he
  have hb' : q1 + planes * (n1 / 8 / bpl) = q2 + planes * (n2 / 8 / bpl) := by
    omega
  obtain ⟨hq, hy⟩ := euclid_unique hq1 hq2 hb'
  refine ⟨?_, hq⟩
  have e1 := Nat.div_add_mod (n1 / 8) bpl
  have e2 := Nat.div_add_mod (n2 / 8) bpl
  rw [hy, ha] at e1
  omega

theorem word_cell (planes : Nat) (n q : Nat) :
    cellOffset ⟨2, planes * 2, 2, planes * 4, 2, planes⟩ n q =
      n / 8 % 2 + 2 * (q + planes * (n / 16)) := by
  unfold cellOffset posAt cursorAt
  dsimp only
  have h1 : n / 8 / 2 = n / 16 := by omega
  rw [h1]
  have h2 : n / 16 / 2 = n / 32 := by omega
  rw [h2]
  have h3 : n / 16 = n / 16 % 2 + 2 * (n / 32) := by omega
  conv_rhs => rw [h3]
  ring

theorem word_bound (planes m n q : Nat) (hn : n < 16 * m) (hq : q < planes) :
    n / 8 % 2 + 2 * (q + planes * (n / 16)) < 2 * m * planes := by
  have h1 : n / 8 % 2 < 2 := by omega
  have h2 : n / 16 < m := by omega
  have hm1 : 1 ≤ m := by omega
  have h3 : planes * (n / 16) ≤ planes * (m - 1) :=
    Nat.mul_le_mul_left _ (by omega)
  have h4 : planes * (m - 1) + planes = planes * m := by
    have hh : m - 1 + 1 = m := by omega
    calc planes * (m - 1) + planes = planes * (m - 1 + 1) := by ring
    _ = planes * m := by rw [hh]
  have h5 : 2 * m * planes = 2 * (planes * m) := by ring
  omega

theorem word_inj (planes : Nat) {n1 q1 n2 q2 : Nat}
    (hq1 : q1 < planes) (hq2 : q2 < planes)
    (he : n1 / 8 % 2 + 2 * (q1 + planes * (n1 / 16)) =
          n2 / 8 % 2 + 2 * (q2 + planes * (n2 / 16)))
    (hm : n1 % 8 = n2 % 8) : n1 = n2 ∧ q1 = q2 := by
  have h1 : n1 / 8 % 2 < 2 := by omega
  have h2 : n2 / 8 % 2 < 2 := by omega
  obtain ⟨ha, hb⟩ := euclid_unique h1 h2 he
  obtain ⟨hq, hdiv⟩ := euclid_unique hq1 hq2 hb
  exact ⟨by omega, hq⟩

/-! List access helpers. -/

theorem getD_map_range {f : Nat → Nat} {N n : Nat} (hn : n < N) :
    ((List.range N).map f).getD n 0 = f n := by
  rw [List.getD_eq_getElem?_getD, List.getElem?_map, List.getElem?_range hn]
  rfl

theorem list_eq_of_getD {l1 l2 : List Nat} (hlen : l1.length = l2.length)
    (h : ∀ i, i < l1.length → l1.getD i 0 = l2.getD i 0) : l1 = l2 := by
  apply List.ext_getElem hlen
  intro i h1 h2
  have hi := h i h1
  rw [List.getD_eq_getElem?_getD, List.getD_eq_getElem?_getD,
    List.getElem?_eq_getElem h1, List.getElem?_eq_getElem h2] at hi
  exact hi

theorem getD_set_cases (data : List Nat) (k v i : Nat) :
    (data.set k v).getD i 0 =
      if i = k ∧ k < data.length then v else data.getD i 0 := by
  by_cases hik : i = k
  · subst hik
    by_cases hk : i < data.length
    · rw [if_pos ⟨rfl, hk⟩]
      simp [List.getD_eq_getElem?_getD, List.getElem?_set_self hk]
    · rw [if_neg (fun hc => hk hc.2), List.set_eq_of_length_le (by omega)]
  · rw [if_neg (fun hc => hik hc.1)]
    simp [List.getD_eq_getElem?_getD, List.getElem?_set_ne (fun h => hik h.symm)]

/-! One successful pixel-to-index lookup of the bridge reader. -/

theorem imageReader_read_ok (pal : List (Option Nat)) (pixels : List Nat)
    (k : Nat) (hk : k < pixels.length)
    (hfound : (pal.findIdx?
      (fun entry => entry == some (pixels.getD k 0))).isSome) :
    ImageDataIndexedPaletteReader.read ⟨pal, pixels, 4 * k⟩ =
      Except.ok (lookupIdx pal (pixels.getD k 0), ⟨pal, pixels, 4 * k + 4⟩) := by
  unfold ImageDataIndexedPaletteReader.read
  dsimp only
  have h4 : 4 * k / 4 = k := by omega
  rw [h4]
  have hx : pixels[k]? = some (pixels.getD k 0) := by
    rw [List.getElem?_eq_getElem hk, List.getD_eq_getElem?_getD,
      List.getElem?_eq_getElem hk]
    rfl
  rw [hx]
  dsimp only
  obtain ⟨j, hj⟩ := Option.isSome_iff_exists.mp hfound
  rw [hj]
  dsimp only
  rw [lookupIdx, hj]
  rfl

/-! The encode loop when every pixel resolves. -/

theorem encodeLoop_ok (pal : List (Option Nat)) (pixels : List Nat) :
    ∀ (n k : Nat) (w : BitplaneWriter),
      k + n ≤ pixels.length →
      (∀ i, k ≤ i → i < k + n →
        (pal.findIdx? (fun entry => entry == some (pixels.getD i 0))).isSome) →
      encodeLoop n (⟨pal, pixels, 4 * k⟩, w) =
        Except.ok (⟨pal, pixels, 4 * (k + n)⟩,
          w.writeAll ((List.range n).map
            (fun i => lookupIdx pal (pixels.getD (k + i) 0)))) := by
  intro n
  induction n with
  | zero =>
    intro k w _ _
    simp [encodeLoop, BitplaneWriter.writeAll]
  | succ n ih =>
    intro k w hn hfound
    have hread := imageReader_read_ok pal pixels k (by omega)
      (hfound k (by omega) (by omega))
    unfold encodeLoop
    rw [hread]
    dsimp only
    have h4 : 4 * k + 4 = 4 * (k + 1) := by ring
    rw [h4, ih (k + 1) (w.write (lookupIdx pal (pixels.getD k 0)))
      (by omega) (fun i h1 h2 => hfound i (by omega) (by omega))]
    have hlist : (List.range (n + 1)).map
        (fun i => lookupIdx pal (pixels.getD (k + i) 0)) =
        lookupIdx pal (pixels.getD k 0) ::
          (List.range n).map (fun i => lookupIdx pal (pixels.getD (k + 1 + i) 0)) := by
      rw [List.range_succ_eq_map, List.map_cons, List.map_map, Nat.add_zero]
      congr 1
      apply List.map_congr_left
      intro i _
      show lookupIdx pal (pixels.getD (k + (i + 1)) 0) =
        lookupIdx pal (pixels.getD (k + 1 + i) 0)
      have h : k + (i + 1) = k + 1 + i := by omega
      rw [h]
    rw [hlist]
    have harith : k + (n + 1) = k + 1 + n := by omega
    rw [harith]
    rfl

/-! One pixel of the decode loop. -/

theorem decodeStep_eq (pal : List (Option Nat)) (data : List Nat) (k : Nat)
    (buf : List Nat) (g : BitplaneGeometry) (cl : List Nat)
    (hcl : k % 8 ≠ 0 → cl = BitplaneReader.decodeRowColors buf g (posAt g k))
    (hB : 0 < g.bytesPerBlock) (hL : 0 < g.blocksPerLine) :
    decodeStep (⟨pal, data, 4 * k⟩, ⟨buf, g, cursorAt g k, cl⟩) =
      (⟨pal, data.set k ((pal.getD (colorAt buf g k) none).getD 0), 4 * (k + 1)⟩,
       ⟨buf, g, cursorAt g (k + 1),
        BitplaneReader.decodeRowColors buf g (posAt g k)⟩) := by
  unfold decodeStep
  rw [read_step hcl hB hL]
  dsimp only
  unfold ImageDataIndexedPaletteWriter.write
  dsimp only
  have h4 : 4 * k / 4 = k := by omega
  have h5 : 4 * k + 4 = 4 * (k + 1) := by ring
  rw [h4, h5]

/-! The decode loop, flattened and characterised. -/

theorem decodeRow_run (pal : List (Option Nat)) (buf : List Nat)
    (g : BitplaneGeometry) (hB : 0 < g.bytesPerBlock)
    (hL : 0 < g.blocksPerLine) :
    ∀ (m k : Nat) (data : List Nat) (cl : List Nat),
      (k % 8 ≠ 0 → cl = BitplaneReader.decodeRowColors buf g (posAt g k)) →
      (decodeRowLoop m (⟨pal, data, 4 * k⟩,
        ⟨buf, g, cursorAt g k, cl⟩)).1.data.length = data.length ∧
      (∀ i, (decodeRowLoop m (⟨pal, data, 4 * k⟩,
          ⟨buf, g, cursorAt g k, cl⟩)).1.data.getD i 0 =
        if k ≤ i ∧ i < k + m ∧ i < data.length
          then (pal.getD (colorAt buf g i) none).getD 0
          else data.getD i 0) := by
  intro m
  induction m with
  | zero =>
    intro k data cl _
    refine ⟨rfl, fun i => ?_⟩
    show data.getD i 0 = _
    rw [if_neg (by omega)]
  | succ m ih =>
    intro k data cl hcl
    have hstep : decodeRowLoop (m + 1) (⟨pal, data, 4 * k⟩,
        ⟨buf, g, cursorAt g k, cl⟩) =
        decodeRowLoop m (decodeStep (⟨pal, data, 4 * k⟩,
          ⟨buf, g, cursorAt g k, cl⟩)) := rfl
    rw [hstep, decodeStep_eq pal data k buf g cl hcl hB hL]
    obtain ⟨ihlen, ihget⟩ := ih (k + 1)
      (data.set k ((pal.getD (colorAt buf g k) none).getD 0))
      (BitplaneReader.decodeRowColors buf g (posAt g k))
      (fun h1 => cache_step g h1)
    constructor
    · rw [ihlen, List.length_set]
    · intro i
      rw [ihget i, List.length_set, getD_set_cases]
      by_cases h1 : k + 1 ≤ i ∧ i < k + 1 + m ∧ i < data.length
      · rw [if_pos h1, if_pos (by omega)]
      · rw [if_neg h1]
        by_cases h2 : i = k ∧ k < data.length
        · rw [if_pos h2, if_pos (by omega)]
          rw [h2.1]
        · rw [if_neg h2, if_neg (by omega)]

theorem decodeRowLoop_add (a b : Nat) :
    ∀ s, decodeRowLoop (a + b) s = decodeRowLoop b (decodeRowLoop a s) := by
  induction a with
  | zero =>
    intro s
    rw [Nat.zero_add]
    rfl
  | succ a ih =>
    intro s
    have h1 : a + 1 + b = (a + b) + 1 := by omega
    rw [h1]
    show decodeRowLoop (a + b) (decodeStep s) =
      decodeRowLoop b (decodeRowLoop a (decodeStep s))
    exact ih (decodeStep s)

theorem decodeLinesLoop_flat (width : Nat) :
    ∀ (h : Nat) (s), decodeLinesLoop width width h s =
      decodeRowLoop (width * h) s := by
  intro h
  induction h with
  | zero =>
    intro s
    rfl
  | succ h ih =>
    intro s
    show decodeLinesLoop width width h
        ((decodeRowLoop width s).1, (decodeRowLoop width s).2.advance (width - width)) =
      decodeRowLoop (width * (h + 1)) s
    have hadv : (decodeRowLoop width s).2.advance (width - width) =
        (decodeRowLoop width s).2 := by
      rw [Nat.sub_self]
      rfl
    rw [hadv]
    have hmul : width * (h + 1) = width + width * h := by ring
    rw [ih, hmul, decodeRowLoop_add]

/-- Encoding all `N` pixel indices through a geometry that addresses the
image injectively and in bounds, then decoding through the same geometry,
recovers every pixel. -/
theorem encode_decode_aux (pal : List (Option Nat)) (pixels : List Nat)
    (g : BitplaneGeometry) (Z N : Nat)
    (hNlen : pixels.length = N)
    (hB : 0 < g.bytesPerBlock) (hL : 0 < g.blocksPerLine)
    (hinj : ∀ n1 q1 n2 q2, n1 < N → q1 < g.planes → n2 < N → q2 < g.planes →
      cellOffset g n1 q1 = cellOffset g n2 q2 → n1 % 8 = n2 % 8 →
      n1 = n2 ∧ q1 = q2)
    (hbnd : ∀ n q, n < N → q < g.planes → cellOffset g n q < Z)
    (hmem : ∀ i, i < N →
      (pal.findIdx? (fun entry => entry == some (pixels.getD i 0))).isSome)
    (hsmall : ∀ i, i < N → lookupIdx pal (pixels.getD i 0) < 2 ^ g.planes)
    (hback : ∀ i, i < N →
      pal.getD (lookupIdx pal (pixels.getD i 0)) none =
        some (pixels.getD i 0)) :
    encodeLoop N (⟨pal, pixels, 0⟩, ⟨List.replicate Z 0, g, ⟨0, 0, 0, 0⟩⟩) =
      Except.ok (⟨pal, pixels, 4 * N⟩,
        BitplaneWriter.writeAll ⟨List.replicate Z 0, g, ⟨0, 0, 0, 0⟩⟩
          ((List.range N).map (fun i => lookupIdx pal (pixels.getD i 0)))) ∧
    (decodeRowLoop N (⟨pal, List.replicate N 0, 0⟩,
      ⟨(BitplaneWriter.writeAll ⟨List.replicate Z 0, g, ⟨0, 0, 0, 0⟩⟩
          ((List.range N).map (fun i => lookupIdx pal (pixels.getD i 0)))).buf,
       g, ⟨0, 0, 0, 0⟩, []⟩)).1.data = pixels := by
  have hidxlen : ((List.range N).map
      (fun i => lookupIdx pal (pixels.getD i 0))).length = N := by
    rw [List.length_map, List.length_range]
  constructor
  · have h := encodeLoop_ok pal pixels N 0
      ⟨List.replicate Z 0, g, ⟨0, 0, 0, 0⟩⟩
      (by omega) (fun i h1 h2 => hmem i (by omega))
    simp only [Nat.zero_add] at h
    exact h
  · -- bits of the written buffer
    have hbits := writeAll_bits hB hL
      ((List.range N).map (fun i => lookupIdx pal (pixels.getD i 0)))
      (by rw [hidxlen]; exact hinj)
      (by rw [hidxlen]; exact hbnd)
      ((List.range N).map (fun i => lookupIdx pal (pixels.getD i 0)))
      0 (List.replicate Z 0) (by rw [List.drop_zero])
      (by rw [List.length_replicate])
      (by
        intro n q hn hq
        rw [bitGet_replicate_zero, if_neg (by omega)])
    rw [cursorAt_zero] at hbits
    obtain ⟨hblen, hbit⟩ := hbits
    rw [hidxlen] at hbit
    -- the reader recovers every index
    have hcolor : ∀ i, i < N →
        colorAt (BitplaneWriter.writeAll ⟨List.replicate Z 0, g, ⟨0, 0, 0, 0⟩⟩
            ((List.range N).map (fun j => lookupIdx pal (pixels.getD j 0)))).buf
          g i = lookupIdx pal (pixels.getD i 0) := by
      intro i hi
      have h1 := colorAt_eq_of_bits (n := i)
        (v := lookupIdx pal (pixels.getD i 0))
        (fun q hq => by
          rw [hbit i q hi hq, if_pos (by omega), getD_map_range hi])
      rw [h1, Nat.mod_eq_of_lt (hsmall i hi)]
    -- run the decode loop
    have hrun := decodeRow_run pal
      (BitplaneWriter.writeAll ⟨List.replicate Z 0, g, ⟨0, 0, 0, 0⟩⟩
        ((List.range N).map (fun j => lookupIdx pal (pixels.getD j 0)))).buf
      g hB hL N 0 (List.replicate N 0) []
      (fun h0 => absurd rfl h0)
    rw [cursorAt_zero] at hrun
    obtain ⟨hrlen, hrget⟩ := hrun
    apply list_eq_of_getD
    · rw [hrlen, List.length_replicate, hNlen]
    · intro i hi
      have hiN : i < N := by
        rw [hrlen, List.length_replicate] at hi
        exact hi
      rw [hrget i, if_pos (by
          refine ⟨by omega, by omega, ?_⟩
          rw [List.length_replicate]
          omega),
        hcolor i hiN, hback i hiN]
      rfl

/-- Every pixel value that occurs in the image resolves in the packed palette
value list, at an index below the list length, and the list maps that index
back to the pixel value. -/
theorem palette_lookup_facts (pal : List (Option Nat)) (pixels : List Nat)
    (N : Nat) (hNlen : pixels.length = N)
    (hmem : ∀ p ∈ pixels, some p ∈ pal) :
    (∀ i, i < N →
      (pal.findIdx? (fun entry => entry == some (pixels.getD i 0))).isSome) ∧
    (∀ i, i < N → lookupIdx pal (pixels.getD i 0) < pal.length) ∧
    (∀ i, i < N → pal.getD (lookupIdx pal (pixels.getD i 0)) none =
      some (pixels.getD i 0)) := by
  have hmem' : ∀ i, i < N →
      (pal.findIdx? (fun entry => entry == some (pixels.getD i 0))).isSome := by
    intro i hi
    rw [List.findIdx?_isSome, List.any_eq_true]
    refine ⟨some (pixels.getD i 0), ?_, by simp⟩
    apply hmem
    have hx : i < pixels.length := by omega
    rw [List.getD_eq_getElem?_getD, List.getElem?_eq_getElem hx]
    simp only [Option.getD_some]
    exact List.getElem_mem hx
  have hres : ∀ i, i < N →
      pal.findIdx? (fun entry => entry == some (pixels.getD i 0)) =
        some (lookupIdx pal (pixels.getD i 0)) := by
    intro i hi
    obtain ⟨j, hj⟩ := Option.isSome_iff_exists.mp (hmem' i hi)
    rw [hj, lookupIdx, hj]
    rfl
  refine ⟨hmem', fun i hi => ?_, fun i hi => ?_⟩
  · obtain ⟨hlt, _, _⟩ := List.findIdx?_eq_some_iff_getElem.mp (hres i hi)
    exact hlt
  · obtain ⟨hlt, hp, _⟩ := List.findIdx?_eq_some_iff_getElem.mp (hres i hi)
    have hpe : pal[lookupIdx pal (pixels.getD i 0)] =
        some (pixels.getD i 0) := by
      simpa using hp
    rw [List.getD_eq_getElem?_getD, List.getElem?_eq_getElem hlt, hpe]
    rfl

/-- **C1.** For every image whose width is a positive multiple of 16 and all
of whose pixel values occur exactly in the palette's packed 8-bit value list
(the list the codec resolves pixels against), and for each of the three
encoding formats, decoding the buffer produced by
`encode(image, palette, {format})` with
`decode(buffer, width, height, palette, {format})` yields the original
pixels. -/
theorem c1_encode_decode_roundtrip (imageData : ImageData)
    (palette : IndexedPalette) (format : EncodingFormat)
    (hlen : imageData.data.length = imageData.width * imageData.height)
    (hw16 : imageData.width % 16 = 0)
    (hw0 : 0 < imageData.width) (hh0 : 0 < imageData.height)
    (hmem : ∀ p ∈ imageData.data,
      some p ∈ (palette.resample 8).toValueArray) :
    ∃ buf, encode imageData palette ⟨none, format⟩ = Except.ok buf ∧
      decode buf imageData.width imageData.height palette ⟨none, format⟩ =
        imageData.data := by
  obtain ⟨w, ht, pixels⟩ := imageData
  dsimp only at hlen hw16 hw0 hh0 hmem ⊢
  set pal := (palette.resample 8).toValueArray with hpal
  set planes := getPlaneCountForIndexedPalette palette with hplanes
  obtain ⟨hmem', hsmalllen, hback⟩ :=
    palette_lookup_facts pal pixels (w * ht) hlen hmem
  have hpallen : pal.length = palette.length := by
    rw [hpal]
    unfold IndexedPalette.toValueArray IndexedPalette.resample
      IndexedPalette.length
    dsimp only
    rw [List.length_map, List.length_map]
  have hsmall : ∀ i, i < w * ht →
      lookupIdx pal (pixels.getD i 0) < 2 ^ planes := by
    intro i hi
    have h1 := hsmalllen i hi
    have h2 : pal.length ≤ 2 ^ planes := by
      rw [hpallen, hplanes]
      exact Nat.le_pow_clog (by norm_num) _
    omega
  have hw8 : w % 8 = 0 := by omega
  have hdiv8 : (w + 7) / 8 = w / 8 := by omega
  have hshift3 : w >>> 3 = w / 8 := by
    rw [Nat.shiftRight_eq_div_pow]
  have hplaneWidth : (w + 7) / 8 * 8 = w := by omega
  have hNP : 8 * (w / 8 * ht) = w * ht := by
    have hww : w = 8 * (w / 8) := by omega
    calc 8 * (w / 8 * ht) = 8 * (w / 8) * ht := by ring
    _ = w * ht := by rw [← hww]
  have hP0 : 0 < w / 8 * ht := Nat.mul_pos (by omega) hh0
  cases format with
  | contiguous =>
    obtain ⟨henc, hdec⟩ := encode_decode_aux pal pixels
      ⟨w / 8 * ht, 0, 1, 0, w / 8 * ht, planes⟩ (w / 8 * ht * planes) (w * ht)
      hlen hP0 (by norm_num)
      (fun n1 q1 n2 q2 hn1 hq1 hn2 hq2 he hm => by
        rw [contiguous_cell _ _ _ _ (by omega),
          contiguous_cell _ _ _ _ (by omega)] at he
        exact contiguous_inj (w / 8 * ht) planes (by omega) hq1 (by omega)
          hq2 he hm)
      (fun n q hn hq => by
        rw [contiguous_cell _ _ _ _ (by omega)]
        exact contiguous_bound _ _ _ _ (by omega) hq)
      hmem' hsmall hback
    refine ⟨(BitplaneWriter.writeAll
        ⟨List.replicate (w / 8 * ht * planes) 0,
         ⟨w / 8 * ht, 0, 1, 0, w / 8 * ht, planes⟩, ⟨0, 0, 0, 0⟩⟩
        ((List.range (w * ht)).map
          (fun i => lookupIdx pal (pixels.getD i 0)))).buf, ?_, ?_⟩
    · show encode _ _ _ = _
      unfold encode
      dsimp only [Option.getD]
      rw [if_neg (by omega)]
      unfold encodeInternal
      dsimp only
      unfold ImageDataIndexedPaletteReader.create BitplaneWriter.contiguous
      dsimp only
      rw [← hpal, ← hplanes, hdiv8, henc]
      rfl
    · show decode _ _ _ _ _ = _
      unfold decode decodeWithReader
      dsimp only [Option.getD]
      unfold ImageDataIndexedPaletteWriter.create ImageData.create
        BitplaneReader.contiguous
      dsimp only
      rw [← hpal, ← hplanes, hplaneWidth, hshift3,
        decodeLinesLoop_flat]
      exact hdec
  | line =>
    obtain ⟨henc, hdec⟩ := encode_decode_aux pal pixels
      ⟨w / 8, 0, 1, w / 8 * planes, w / 8, planes⟩ (w / 8 * ht * planes)
      (w * ht) hlen (show 0 < w / 8 by omega) (by norm_num)
      (fun n1 q1 n2 q2 hn1 hq1 hn2 hq2 he hm => by
        rw [line_cell, line_cell] at he
        exact line_inj (w / 8) planes (by omega) hq1 hq2 he hm)
      (fun n q hn hq => by
        rw [line_cell]
        have hb := line_bound (w / 8) planes ht n q (by omega) hq (by omega)
        have hZ : w / 8 * planes * ht = w / 8 * ht * planes := by ring
        omega)
      hmem' hsmall hback
    refine ⟨(BitplaneWriter.writeAll
        ⟨List.replicate (w / 8 * ht * planes) 0,
         ⟨w / 8, 0, 1, w / 8 * planes, w / 8, planes⟩, ⟨0, 0, 0, 0⟩⟩
        ((List.range (w * ht)).map
          (fun i => lookupIdx pal (pixels.getD i 0)))).buf, ?_, ?_⟩
    · show encode _ _ _ = _
      unfold encode
      dsimp only [Option.getD]
      rw [if_neg (by omega)]
      unfold encodeInternal
      dsimp only
      unfold ImageDataIndexedPaletteReader.create BitplaneWriter.line
      dsimp only
      rw [← hpal, ← hplanes, hdiv8, henc]
      rfl
    · show decode _ _ _ _ _ = _
      unfold decode decodeWithReader
      dsimp only [Option.getD]
      unfold ImageDataIndexedPaletteWriter.create ImageData.create
        BitplaneReader.line
      dsimp only
      rw [← hpal, ← hplanes, hplaneWidth, hshift3,
        decodeLinesLoop_flat]
      exact hdec
  | word =>
    have hM : 16 * (w / 16 * ht) = w * ht := by
      have hww : w = 16 * (w / 16) := by omega
      calc 16 * (w / 16 * ht) = 16 * (w / 16) * ht := by ring
      _ = w * ht := by rw [← hww]
    have hZw : 2 * (w / 16 * ht) * planes = w / 8 * ht * planes := by
      have h28 : w / 8 = 2 * (w / 16) := by omega
      calc 2 * (w / 16 * ht) * planes = 2 * (w / 16) * ht * planes := by ring
      _ = w / 8 * ht * planes := by rw [← h28]
    obtain ⟨henc, hdec⟩ := encode_decode_aux pal pixels
      ⟨2, planes * 2, 2, planes * 4, 2, planes⟩ (w / 8 * ht * planes)
      (w * ht) hlen (by norm_num) (by norm_num)
      (fun n1 q1 n2 q2 hn1 hq1 hn2 hq2 he hm => by
        rw [word_cell, word_cell] at he
        exact word_inj planes hq1 hq2 he hm)
      (fun n q hn hq => by
        rw [word_cell]
        have hb := word_bound planes (w / 16 * ht) n q (by omega) hq
        omega)
      hmem' hsmall hback
    refine ⟨(BitplaneWriter.writeAll
        ⟨List.replicate (w / 8 * ht * planes) 0,
         ⟨2, planes * 2, 2, planes * 4, 2, planes⟩, ⟨0, 0, 0, 0⟩⟩
        ((List.range (w * ht)).map
          (fun i => lookupIdx pal (pixels.getD i 0)))).buf, ?_, ?_⟩
    · show encode _ _ _ = _
      unfold encode
      dsimp only [Option.getD]
      rw [if_neg (by omega)]
      unfold encodeInternal
      dsimp only
      unfold ImageDataIndexedPaletteReader.create BitplaneWriter.word
      dsimp only
      rw [← hpal, ← hplanes, henc]
      rfl
    · show decode _ _ _ _ _ = _
      unfold decode decodeWithReader
      dsimp only [Option.getD]
      unfold ImageDataIndexedPaletteWriter.create ImageData.create
        BitplaneReader.word
      dsimp only
      rw [← hpal, ← hplanes, hplaneWidth, decodeLinesLoop_flat]
      exact hdec

/-- Witness for C1 at a concrete 16×1 image over the monochrome palette. -/
theorem c1_witness :
    ∃ buf, encode ⟨16, 1, roundtripPixels16⟩ IndexedPalette.monochrome
        ⟨none, EncodingFormat.contiguous⟩ = Except.ok buf ∧
      decode buf 16 1 IndexedPalette.monochrome
        ⟨none, EncodingFormat.contiguous⟩ = roundtripPixels16 :=
  c1_encode_decode_roundtrip ⟨16, 1, roundtripPixels16⟩
    IndexedPalette.monochrome EncodingFormat.contiguous
    (by decide) (by decide) (by decide) (by decide)
    (by with_unfolding_all decide)

/-! C10: the decode path never writes to the planar buffer. -/

theorem advance_preserves_buf (n : Nat) :
    ∀ r : BitplaneReader, (r.advance n).buf = r.buf := by
  induction n with
  | zero => intro r; rfl
  | succ n ih => intro r; exact ih _

theorem decodeStep_preserves_buf (s : ImageDataIndexedPaletteWriter × BitplaneReader) :
    (decodeStep s).2.buf = s.2.buf := rfl

theorem decodeRowLoop_preserves_buf (m : Nat) :
    ∀ s, (decodeRowLoop m s).2.buf = s.2.buf := by
  induction m with
  | zero => intro s; rfl
  | succ m ih =>
    intro s
    calc (decodeRowLoop (m + 1) s).2.buf
        = (decodeRowLoop m (decodeStep s)).2.buf := rfl
    _ = (decodeStep s).2.buf := ih _
    _ = s.2.buf := rfl

theorem decodeLinesLoop_preserves_buf (width planeWidth : Nat) (h : Nat) :
    ∀ s, (decodeLinesLoop width planeWidth h s).2.buf = s.2.buf := by
  induction h with
  | zero => intro s; rfl
  | succ h ih =>
    intro s
    calc (decodeLinesLoop width planeWidth (h + 1) s).2.buf
        = (decodeLinesLoop width planeWidth h
            ((decodeRowLoop width s).1,
             (decodeRowLoop width s).2.advance (planeWidth - width))).2.buf := rfl
    _ = ((decodeRowLoop width s).2.advance (planeWidth - width)).buf := ih _
    _ = (decodeRowLoop width s).2.buf := advance_preserves_buf _ _
    _ = s.2.buf := decodeRowLoop_preserves_buf _ _

/-- **C10**: `decode` never mutates the input planar buffer.  The bitplane
reader only ever loads bytes: for every input, the reader that `decode`
drove over the buffer still holds exactly the caller's buffer when the
call returns (every step of `read`/`advance` preserves it, as the lemmas
above show). -/
theorem c10_decode_never_mutates_buffer (buffer : List Nat)
    (width height : Nat) (palette : IndexedPalette)
    (options : BitplaneEncodingOptions) :
    (decodeWithReader buffer width height palette options).2.buf = buffer := by
  obtain ⟨op, fmt⟩ := options
  cases fmt <;>
    (unfold decodeWithReader
     dsimp only
     rw [decodeLinesLoop_preserves_buf]) <;>
    rfl

/-! C7: the width check and the output size of `encode`. -/

theorem writeFold_length (p S t : Nat) :
    ∀ (l : List Nat) (acc : List Nat × Nat),
      ((l.foldl (BitplaneWriter.writePlaneStep p S t) acc).1).length =
        acc.1.length := by
  intro l
  induction l with
  | nil => intro acc; rfl
  | cons x l ih =>
    intro acc
    rw [List.foldl_cons, ih, writePlaneStep_eq]
    by_cases hb : acc.2 &&& 1 ≠ 0
    · rw [if_pos hb]
      exact List.length_set _ _ _
    · rw [if_neg hb]

theorem write_buf_length (w : BitplaneWriter) (color : Nat) :
    ((w.write color).buf).length = w.buf.length := by
  unfold BitplaneWriter.write
  dsimp only
  exact writeFold_length _ _ _ _ _

theorem encodeLoop_buf_length :
    ∀ (n : Nat) (s : ImageDataIndexedPaletteReader × BitplaneWriter)
      (out : ImageDataIndexedPaletteReader × BitplaneWriter),
      encodeLoop n s = Except.ok out → out.2.buf.length = s.2.buf.length := by
  intro n
  induction n with
  | zero =>
    intro s out h
    cases h
    rfl
  | succ n ih =>
    intro s out h
    unfold encodeLoop at h
    cases hread : s.1.read with
    | error e => rw [hread] at h; cases h
    | ok pr =>
      rw [hread] at h
      dsimp only at h
      rw [ih _ _ h]
      exact write_buf_length s.2 pr.1

theorem encodeInternal_ok_length (buffer : List Nat) (imageData : ImageData)
    (palette : IndexedPalette) (planes : Nat) (format : EncodingFormat)
    (buf : List Nat)
    (h : encodeInternal buffer imageData palette planes format =
      Except.ok buf) : buf.length = buffer.length := by
  unfold encodeInternal at h
  cases format <;>
    (dsimp only at h
     generalize hloop : encodeLoop (imageData.width * imageData.height)
        (ImageDataIndexedPaletteReader.create imageData palette, _) = res at h
     cases res with
     | error e => cases h
     | ok s =>
       cases h
       exact encodeLoop_buf_length _ _ _ hloop)

/-- **C7**: `encode(imageData, palette, options)` fails with the format
error whenever the image width is not a multiple of 16 — the check happens
before any output buffer even exists — and whenever it returns a buffer,
that buffer is exactly `width / 8 * height * planes` bytes long. -/
theorem c7_encode_width_check_and_size (imageData : ImageData)
    (palette : IndexedPalette) (options : BitplaneEncodingOptions) :
    (imageData.width % 16 ≠ 0 →
      encode imageData palette options =
        Except.error "Image width must be a multiple of 16") ∧
    (∀ buf, encode imageData palette options = Except.ok buf →
      buf.length = imageData.width / 8 * imageData.height *
        (options.planes.getD (getPlaneCountForIndexedPalette palette))) := by
  constructor
  · intro h16
    unfold encode
    rw [if_pos h16]
  · intro buf hok
    unfold encode at hok
    by_cases h16 : imageData.width % 16 ≠ 0
    · rw [if_pos h16] at hok
      cases hok
    · rw [if_neg h16] at hok
      have hlen := encodeInternal_ok_length _ _ _ _ _ _ hok
      rw [hlen, List.length_replicate]

/-- Witness for C7: width 8 is rejected with the format error; a successful
16×1 encode returns a buffer of `16 / 8 * 1 * 1 = 2` bytes. -/
theorem c7_witness :
    encode ⟨8, 1, List.replicate 8 0xffffffff⟩ IndexedPalette.monochrome
        ⟨none, EncodingFormat.word⟩ =
      Except.error "Image width must be a multiple of 16" ∧
    encode ⟨16, 1, List.replicate 16 0xffffffff⟩ IndexedPalette.monochrome
        ⟨none, EncodingFormat.word⟩ = Except.ok (List.replicate 2 0) ∧
    (List.replicate 2 0).length = 16 / 8 * 1 *
      ((none : Option Nat).getD
        (getPlaneCountForIndexedPalette IndexedPalette.monochrome)) := by
  have hok : encode ⟨16, 1, List.replicate 16 0xffffffff⟩
      IndexedPalette.monochrome ⟨none, EncodingFormat.word⟩ =
      Except.ok (List.replicate 2 0) := by with_unfolding_all rfl
  refine ⟨(c7_encode_width_check_and_size ⟨8, 1, List.replicate 8 0xffffffff⟩
      IndexedPalette.monochrome ⟨none, EncodingFormat.word⟩).1 (by decide),
    hok, ?_⟩
  exact (c7_encode_width_check_and_size ⟨16, 1, List.replicate 16 0xffffffff⟩
    IndexedPalette.monochrome ⟨none, EncodingFormat.word⟩).2 _ hok

/-! C9: the concrete `0xAA, 0x00` decode scenario. -/

/-- **C9** (counterexample): decoding the 2-byte buffer `0xAA, 0x00` as a
16×1 single-plane contiguous image over the monochrome palette does *not*
produce 16 pixels strictly alternating black, white, …: the second byte is
`0x00`, so pixels 8–15 all decode to palette index 0 (white). -/
theorem c9_counterexample :
    decode [0xAA, 0x00] 16 1 IndexedPalette.monochrome
      ⟨none, EncodingFormat.contiguous⟩ ≠ claimedAlternating16 := by
  with_unfolding_all decide

/-- **C9** (amended): the 16×1 single-plane contiguous decode of
`0xAA, 0x00` over the monochrome palette yields pixels 0–7 alternating
black, white (most-significant bit first, so pixel 0 is black) and pixels
8–15 — decoded from the byte `0x00` — all white. -/
theorem c9_amended :
    decode [0xAA, 0x00] 16 1 IndexedPalette.monochrome
      ⟨none, EncodingFormat.contiguous⟩ =
      [0x000000ff, 0xffffffff, 0x000000ff, 0xffffffff,
       0x000000ff, 0xffffffff, 0x000000ff, 0xffffffff,
       0xffffffff, 0xffffffff, 0xffffffff, 0xffffffff,
       0xffffffff, 0xffffffff, 0xffffffff, 0xffffffff] := by
  with_unfolding_all decide

/-! C3: out-of-range reads and writes are silent, not errors. -/

/-- **C3** (the code at the claim's failing input): decoding a 16×1
single-plane contiguous image from a buffer one byte shorter than
`bytesPerPlane * planes = 2` raises no error at all — `Uint8Array`
out-of-range reads yield `undefined`, which the bit operations coerce to 0,
so the call returns 16 pixels whose last 8 are palette entry 0 (white)
instead of failing.  (The reader's and writer's own doc comments promise a
`RangeError` here.) -/
theorem c3_short_buffer_decodes_silently :
    decode [0xAA] 16 1 IndexedPalette.monochrome
      ⟨none, EncodingFormat.contiguous⟩ =
      [0x000000ff, 0xffffffff, 0x000000ff, 0xffffffff,
       0x000000ff, 0xffffffff, 0x000000ff, 0xffffffff,
       0xffffffff, 0xffffffff, 0xffffffff, 0xffffffff,
       0xffffffff, 0xffffffff, 0xffffffff, 0xffffffff] := by
  with_unfolding_all decide

/-! C2: the pack/depack round trip breaks. -/

/-- **C2** (the code at the claim's failing input): `packLine` compresses
the 2-byte line `[0, 1]` into 3 bytes (a literal dump), which is longer
than the staging buffer `pack` allocates with the *input's* length, so
`compressedData.set` throws a `RangeError` inside `pack` itself —
`depack(pack(data, lineLen), data.length)` can never return the data. -/
theorem c2_pack_throws_on_incompressible_input :
    packLine [0, 1] = [1, 0, 1] ∧
    pack [0, 1] 2 = Except.error "RangeError: offset is out of bounds" := by
  constructor
  · rfl
  · unfold pack packGo
    rfl

/-! C4: the Hold-and-Modify per-pixel step. -/

theorem testBit_small {v j : Nat} (hv : v < 256) (hj : 8 ≤ j) : v.testBit j = false := by
  apply Nat.testBit_lt_two_pow
  calc v < 256 := hv
  _ = 2 ^ 8 := by norm_num
  _ ≤ 2 ^ j := Nat.pow_le_pow_right (by omega) hj

theorem testBit_pack4 (R G B A : Nat) (hG : G < 256) (hB : B < 256) (hA : A < 256)
    (j : Nat) :
    (pack4 R G B A).testBit j =
      if j < 8 then A.testBit j
      else if j < 16 then B.testBit (j - 8)
      else if j < 24 then G.testBit (j - 16)
      else R.testBit (j - 24) := by
  have h1 : pack4 R G B A = 2 ^ 24 * R + (2 ^ 16 * G + (2 ^ 8 * B + A)) := by
    unfold pack4; ring
  have hBA : 2 ^ 8 * B + A < 2 ^ 16 := by omega
  have hGBA : 2 ^ 16 * G + (2 ^ 8 * B + A) < 2 ^ 24 := by omega
  rw [h1, Nat.testBit_mul_pow_two_add _ hGBA, Nat.testBit_mul_pow_two_add _ hBA,
    Nat.testBit_mul_pow_two_add _ hA]
  split_ifs <;> first | rfl | (exfalso; omega)

theorem mask_blue_testBit (j : Nat) :
    (0xffff00ff : Nat).testBit j =
      if j < 16 then decide (j < 8) else decide (j - 16 < 16) := by
  have h1 : (0xffff00ff : Nat) = 2 ^ 16 * (2 ^ 16 - 1) + (2 ^ 8 - 1) := by norm_num
  rw [h1, Nat.testBit_mul_pow_two_add _ (by norm_num)]
  rcases Nat.lt_or_ge j 16 with h | h
  · rw [if_pos h, if_pos h, Nat.testBit_two_pow_sub_one]
  · rw [if_neg (by omega), if_neg (by omega), Nat.testBit_two_pow_sub_one]

theorem mask_red_testBit (j : Nat) :
    (0x00ffffff : Nat).testBit j = decide (j < 24) := by
  have h1 : (0x00ffffff : Nat) = 2 ^ 24 - 1 := by norm_num
  rw [h1, Nat.testBit_two_pow_sub_one]

theorem mask_green_testBit (j : Nat) :
    (0xff00ffff : Nat).testBit j =
      if j < 24 then decide (j < 16) else decide (j - 24 < 8) := by
  have h1 : (0xff00ffff : Nat) = 2 ^ 24 * (2 ^ 8 - 1) + (2 ^ 16 - 1) := by norm_num
  rw [h1, Nat.testBit_mul_pow_two_add _ (by norm_num)]
  rcases Nat.lt_or_ge j 24 with h | h
  · rw [if_pos h, if_pos h, Nat.testBit_two_pow_sub_one]
  · rw [if_neg (by omega), if_neg (by omega), Nat.testBit_two_pow_sub_one]

theorem ham_patch_blue (R G B A v : Nat) (hR : R < 256) (hG : G < 256) (hB : B < 256)
    (hA : A < 256) (hv : v < 256) :
    (pack4 R G B A &&& 0xffff00ff) ||| (v <<< 8) = pack4 R G v A := by
  apply Nat.eq_of_testBit_eq
  intro j
  rw [Nat.testBit_or, Nat.testBit_and, Nat.testBit_shiftLeft,
    testBit_pack4 R G B A hG hB hA, testBit_pack4 R G v A hG hv hA, mask_blue_testBit]
  rcases Nat.lt_or_ge j 8 with h8 | h8
  · have h16 : j < 16 := by omega
    have hn : ¬ 8 ≤ j := by omega
    simp [h8, h16, hn]
  · rcases Nat.lt_or_ge j 16 with h16 | h16
    · have h1 : ¬ j < 8 := by omega
      simp [h16, h1, h8]
    · have h1 : ¬ j < 8 := by omega
      have h2 : ¬ j < 16 := by omega
      have hv8 : v.testBit (j - 8) = false := testBit_small hv (by omega)
      rcases Nat.lt_or_ge j 32 with h32 | h32
      · have h3 : j - 16 < 16 := by omega
        simp [h1, h2, h3, h8, hv8]
      · have h3 : ¬ j - 16 < 16 := by omega
        have h4 : ¬ j < 24 := by omega
        have hRb : R.testBit (j - 24) = false := testBit_small hR (by omega)
        simp [h1, h2, h3, h4, h8, hv8, hRb]

theorem ham_patch_red (R G B A v : Nat) (hR : R < 256) (hG : G < 256) (hB : B < 256)
    (hA : A < 256) (hv : v < 256) :
    (pack4 R G B A &&& 0x00ffffff) ||| (v <<< 24) = pack4 v G B A := by
  apply Nat.eq_of_testBit_eq
  intro j
  rw [Nat.testBit_or, Nat.testBit_and, Nat.testBit_shiftLeft,
    testBit_pack4 R G B A hG hB hA, testBit_pack4 v G B A hG hB hA, mask_red_testBit]
  rcases Nat.lt_or_ge j 24 with h24 | h24
  · have hn : ¬ 24 ≤ j := by omega
    simp [h24, hn]
  · have h1 : ¬ j < 8 := by omega
    have h2 : ¬ j < 16 := by omega
    have h3 : ¬ j < 24 := by omega
    simp [h1, h2, h3, h24]

theorem ham_patch_green (R G B A v : Nat) (hR : R < 256) (hG : G < 256) (hB : B < 256)
    (hA : A < 256) (hv : v < 256) :
    (pack4 R G B A &&& 0xff00ffff) ||| (v <<< 16) = pack4 R v B A := by
  apply Nat.eq_of_testBit_eq
  intro j
  rw [Nat.testBit_or, Nat.testBit_and, Nat.testBit_shiftLeft,
    testBit_pack4 R G B A hG hB hA, testBit_pack4 R v B A hv hB hA, mask_green_testBit]
  rcases Nat.lt_or_ge j 16 with h16 | h16
  · have h24 : j < 24 := by omega
    have hn : ¬ 16 ≤ j := by omega
    simp [h16, h24, hn]
  · rcases Nat.lt_or_ge j 24 with h24 | h24
    · have h1 : ¬ j < 8 := by omega
      have h2 : ¬ j < 16 := by omega
      simp [h1, h2, h16, h24]
    · have h1 : ¬ j < 8 := by omega
      have h2 : ¬ j < 16 := by omega
      have h3 : ¬ j < 24 := by omega
      have hv16 : v.testBit (j - 16) = false := testBit_small hv (by omega)
      rcases Nat.lt_or_ge j 32 with h32 | h32
      · have h4 : j - 24 < 8 := by omega
        simp [h1, h2, h3, h4, h16, hv16]
      · have h4 : ¬ j - 24 < 8 := by omega
        have hRb : R.testBit (j - 24) = false := testBit_small hR (by omega)
        simp [h1, h2, h3, h4, h16, hv16, hRb]

theorem hamVal_lt (planes c : Nat) :
    (c &&& (2 ^ (planes - 2) - 1)) * 255 / 2 ^ (planes - 2) < 256 := by
  have hpow : 0 < 2 ^ (planes - 2) := Nat.pos_pow_of_pos _ (by omega)
  have hand : c &&& (2 ^ (planes - 2) - 1) ≤ 2 ^ (planes - 2) - 1 :=
    Nat.and_le_right
  rw [Nat.div_lt_iff_lt_mul hpow]
  omega

/-- **C4** (amended): in the Hold-and-Modify per-pixel step, a raw value
within the mask `2^(planes-2) - 1` sets the current color to the palette
entry; otherwise the top 2 command bits select a channel in the order
**blue** (command 1, bits 8-15), **red** (command 2, bits 24-31),
**green** (command 3, bits 16-23) — not green/blue/red as claimed — and the
masked remaining bits, scaled by `255 / 2^(planes-2)` and truncated, replace
only that channel, leaving the other three untouched. -/
theorem c4_hamStep_amended (colors : List Nat) (planes R G B A c : Nat)
    (hR : R < 256) (hG : G < 256) (hB : B < 256) (hA : A < 256) :
    (c ≤ (1 <<< (planes - 2)) - 1 →
      hamStep colors planes (pack4 R G B A) c = colors.getD c 0) ∧
    ((1 <<< (planes - 2)) - 1 < c →
      (c >>> (planes - 2) = 1 →
        hamStep colors planes (pack4 R G B A) c =
          pack4 R G ((c &&& ((1 <<< (planes - 2)) - 1)) * 255 / 2 ^ (planes - 2)) A) ∧
      (c >>> (planes - 2) = 2 →
        hamStep colors planes (pack4 R G B A) c =
          pack4 ((c &&& ((1 <<< (planes - 2)) - 1)) * 255 / 2 ^ (planes - 2)) G B A) ∧
      (c >>> (planes - 2) ≠ 1 → c >>> (planes - 2) ≠ 2 →
        hamStep colors planes (pack4 R G B A) c =
          pack4 R ((c &&& ((1 <<< (planes - 2)) - 1)) * 255 / 2 ^ (planes - 2)) B A)) := by
  have hsh : (1 : Nat) <<< (planes - 2) = 2 ^ (planes - 2) := by
    rw [Nat.shiftLeft_eq, Nat.one_mul]
  have hv := hamVal_lt planes c
  constructor
  · intro hle
    unfold hamStep
    rw [if_pos hle]
  · intro hgt
    have hnle : ¬ c ≤ (1 <<< (planes - 2)) - 1 := Nat.not_le.mpr hgt
    refine ⟨fun hcmd => ?_, fun hcmd => ?_, fun hc1 hc2 => ?_⟩
    · unfold hamStep
      rw [if_neg hnle, if_pos hcmd, hsh]
      exact ham_patch_blue R G B A _ hR hG hB hA hv
    · have hne1 : ¬ c >>> (planes - 2) = 1 := by rw [hcmd]; omega
      unfold hamStep
      rw [if_neg hnle, if_neg hne1, if_pos hcmd, hsh]
      exact ham_patch_red R G B A _ hR hG hB hA hv
    · unfold hamStep
      rw [if_neg hnle, if_neg hc1, if_neg hc2, hsh]
      exact ham_patch_green R G B A _ hR hG hB hA hv


/-! C5: the Extra-Half-Brite palette extension. -/

theorem getD_set_poly {α : Type} (data : List α) (k : Nat) (v d : α) (i : Nat) :
    (data.set k v).getD i d =
      if i = k ∧ k < data.length then v else data.getD i d := by
  by_cases hik : i = k
  · subst hik
    by_cases hk : i < data.length
    · rw [if_pos ⟨rfl, hk⟩]
      simp [List.getD_eq_getElem?_getD, List.getElem?_set_self hk]
    · rw [if_neg (fun hc => hk hc.2), List.set_eq_of_length_le (by omega)]
  · rw [if_neg (fun hc => hik hc.1)]
    simp [List.getD_eq_getElem?_getD, List.getElem?_set_ne (fun h => hik h.symm)]

theorem ehb_max_cast : (((IndexedPalette.mk cs 8).maxChannelValue : Nat) : ℚ) = (255 : ℚ) := by
  norm_num [IndexedPalette.maxChannelValue, Nat.shiftLeft_eq]

theorem ehb_fold_inv (palette : IndexedPalette)
    (hall : ∀ c, c < 32 → (palette.getColor c).isSome) :
    ∀ k, k ≤ 32 →
      ∃ cs : List (Option Color),
        (List.range k).foldl (createEhbPaletteStep palette)
            (some (IndexedPalette.create 64 8)) = some ⟨cs, 8⟩ ∧
        cs.length = 64 ∧
        (∀ i, i < k → ∀ col, palette.getColor i = some col →
          cs.getD i none =
            some (IndexedPalette.clampedColor 255 col.r col.g col.b 255) ∧
          cs.getD (i + 32) none =
            some (IndexedPalette.clampedColor 255
              (col.r / 2) (col.g / 2) (col.b / 2) 255)) := by
  intro k
  induction k with
  | zero =>
    intro _
    exact ⟨List.replicate 64 none, rfl, by simp, fun i hi => absurd hi (by omega)⟩
  | succ k ih =>
    intro hk1
    obtain ⟨cs, hfold, hlen, hpt⟩ := ih (by omega)
    obtain ⟨colk, hcolk⟩ := Option.isSome_iff_exists.mp (hall k (by omega))
    refine ⟨(cs.set k (some (IndexedPalette.clampedColor 255 colk.r colk.g colk.b 255))).set
        (k + 32) (some (IndexedPalette.clampedColor 255
          (colk.r / 2) (colk.g / 2) (colk.b / 2) 255)), ?_, ?_, ?_⟩
    · rw [List.range_succ, List.foldl_append, hfold, List.foldl_cons, List.foldl_nil]
      unfold createEhbPaletteStep
      rw [hcolk]
      dsimp only [Option.bind, Option.map]
      simp only [IndexedPalette.setColorRGB, IndexedPalette.setColor, ehb_max_cast]
    · rw [List.length_set, List.length_set, hlen]
    · intro i hi col hcol
      by_cases hik : i = k
      · subst hik
        have hcc : colk = col := Option.some.inj (hcolk.symm.trans hcol)
        subst hcc
        constructor
        · rw [getD_set_poly, if_neg (by omega), getD_set_poly,
            if_pos ⟨rfl, by rw [hlen]; omega⟩]
        · rw [getD_set_poly, if_pos ⟨rfl, by rw [List.length_set, hlen]; omega⟩]
      · have hik32 : ¬ i = k + 32 := by omega
        obtain ⟨h1, h2⟩ := hpt i (by omega) col hcol
        constructor
        · rw [getD_set_poly, if_neg (by omega), getD_set_poly, if_neg (by omega), h1]
        · rw [getD_set_poly, if_neg (by omega), getD_set_poly, if_neg (by omega), h2]

/-- **C5** (amended): for an input palette whose first 32 entries are all
present, `createEhbPalette` returns a 64-entry 8-bit palette whose entry
`i < 32` holds entry `i`'s RGB channels (clamped to 0-255) with the alpha
forced to fully opaque 255 — not a verbatim copy of the input color — and
whose entry `i + 32` holds each channel divided by 2 **exactly** (plain JS
division, no integer truncation), again with alpha forced to 255. -/
theorem c5_createEhbPalette_amended (palette : IndexedPalette)
    (hall : ∀ c, c < 32 → (palette.getColor c).isSome) :
    ∃ ehb, createEhbPalette palette = some ehb ∧
      ehb.length = 64 ∧ ehb.bitsPerChannel = 8 ∧
      ∀ i, i < 32 → ∀ col, palette.getColor i = some col →
        ehb.getColor i = some (IndexedPalette.clampedColor 255 col.r col.g col.b 255) ∧
        ehb.getColor (i + 32) = some (IndexedPalette.clampedColor 255
          (col.r / 2) (col.g / 2) (col.b / 2) 255) := by
  obtain ⟨cs, hfold, hlen, hpt⟩ := ehb_fold_inv palette hall 32 (by omega)
  exact ⟨⟨cs, 8⟩, hfold, hlen, rfl, fun i hi col hcol => hpt i hi col hcol⟩

/-- **C5** (counterexample): on a 32-color palette whose entry 0 is
`(3, 5, 7)` with alpha 100, the EHB palette's entry 32 is `(3/2, 5/2, 7/2)` —
the exact rational halves, not the integer divisions `3 / 2 = 1` etc. — and
entry 0 comes back with alpha 255, so it does not equal the input color
either. -/
theorem c5_counterexample :
    (createEhbPalette ehbCounterPalette).map
        (fun ehb => (ehb.getColor 0, ehb.getColor 32)) =
      some (some ⟨3, 5, 7, 255⟩, some ⟨3/2, 5/2, 7/2, 255⟩) ∧
    ehbCounterPalette.getColor 0 = some ⟨3, 5, 7, 100⟩ ∧
    ((3 : ℚ) / 2 ≠ ((3 / 2 : Nat) : ℚ)) := by
  refine ⟨?_, ?_, ?_⟩
  · with_unfolding_all decide
  · with_unfolding_all decide
  · with_unfolding_all decide

/-- Witness for C5 on the concrete 32-color palette: the amended theorem
instantiated and evaluated at entries 0 and 32. -/
theorem c5_witness :
    ∃ ehb, createEhbPalette ehbCounterPalette = some ehb ∧
      ehb.getColor 0 = some ⟨3, 5, 7, 255⟩ ∧
      ehb.getColor 32 = some ⟨3/2, 5/2, 7/2, 255⟩ := by
  obtain ⟨ehb, h1, _, _, h4⟩ :=
    c5_createEhbPalette_amended ehbCounterPalette (by with_unfolding_all decide)
  have hcol : ehbCounterPalette.getColor 0 = some ⟨3, 5, 7, 100⟩ := by
    with_unfolding_all decide
  obtain ⟨ha, hb⟩ := h4 0 (by omega) ⟨3, 5, 7, 100⟩ hcol
  refine ⟨ehb, h1, ?_, ?_⟩
  · rw [ha]; with_unfolding_all decide
  · rw [hb]; with_unfolding_all decide

/-- **C6** (amended): `resample(newBitsPerChannel)` returns a palette of the
same length at the new depth; holes stay holes, and every set color's every
channel is the **exact** linear rescale `oldValue / oldMax * newMax` (clamped
to `[0, newMax]`), with no rounding applied. -/
theorem c6_resample_amended (p : IndexedPalette) (b : Nat) :
    (p.resample b).length = p.length ∧
    (p.resample b).bitsPerChannel = b ∧
    (∀ i, p.getColor i = none → (p.resample b).getColor i = none) ∧
    (∀ i col, p.getColor i = some col →
      (p.resample b).getColor i =
        some (IndexedPalette.clampedColor (((1 <<< b) - 1 : Nat) : ℚ)
          (col.r / (p.maxChannelValue : ℚ) * (((1 <<< b) - 1 : Nat) : ℚ))
          (col.g / (p.maxChannelValue : ℚ) * (((1 <<< b) - 1 : Nat) : ℚ))
          (col.b / (p.maxChannelValue : ℚ) * (((1 <<< b) - 1 : Nat) : ℚ))
          (col.a / (p.maxChannelValue : ℚ) * (((1 <<< b) - 1 : Nat) : ℚ)))) := by
  have hmap : ∀ (l : List (Option Color)) (f : Color → Color) (i : Nat),
      (l.map (Option.map f)).getD i none = Option.map f (l.getD i none) := by
    intro l f i
    rw [List.getD_eq_getElem?_getD, List.getElem?_map, List.getD_eq_getElem?_getD]
    cases l[i]? <;> rfl
  refine ⟨?_, rfl, ?_, ?_⟩
  · unfold IndexedPalette.resample IndexedPalette.length
    exact List.length_map _ _
  · intro i hnone
    unfold IndexedPalette.resample IndexedPalette.getColor
    unfold IndexedPalette.getColor at hnone
    rw [hmap, hnone]
    rfl
  · intro i col hcol
    unfold IndexedPalette.resample IndexedPalette.getColor
    unfold IndexedPalette.getColor at hcol
    rw [hmap, hcol]
    rfl

/-- **C6** (counterexample): resampling the single color `(128, 0, 0, 255)`
from 8 to 4 bits stores red `128 / 255 * 15 = 128/17`, whereas the claimed
`round(oldValue / oldMax * newMax)` is `8` — and `128/17 ≠ 8`. -/
theorem c6_counterexample :
    (resampleCounterPalette.resample 4).getColor 0 =
      some ⟨128/17, 0, 0, 15⟩ ∧
    round ((128 : ℚ) / 255 * 15) = 8 ∧
    (128 : ℚ) / 17 ≠ 8 := by
  refine ⟨by with_unfolding_all decide, ?_, by norm_num⟩
  rw [round_eq]
  norm_num

/-- Witness for C6: the amended theorem instantiated at the one-color
palette and evaluated at entry 0. -/
theorem c6_witness :
    (resampleCounterPalette.resample 4).getColor 0 = some ⟨128/17, 0, 0, 15⟩ := by
  obtain ⟨_, _, _, hsome⟩ := c6_resample_amended resampleCounterPalette 4
  have hcol : resampleCounterPalette.getColor 0 = some ⟨128, 0, 0, 255⟩ := by
    with_unfolding_all decide
  rw [hsome 0 ⟨128, 0, 0, 255⟩ hcol]
  with_unfolding_all decide


/-! C8: the IFF chunk reader's pad-byte probe. -/

/-- **C8**: `readChunk()` consumes the 4-byte tag, the 4-byte big-endian
length `L` and scopes a sub-reader to exactly the `L` payload bytes starting
right after the header; it then advances one extra pad byte **iff** the
resulting position is odd, the reader is not at the end of its window, and
the byte at that position is zero — a writer that omitted the pad byte makes
the probe see a nonzero byte (or the end), which is tolerated silently and
never an error. -/
theorem c8_readChunk_pad_probe (buf : List Nat) (off len pos L : Nat)
    (hL : L = (buf.getD (off + pos + 4) 0) <<< 24 + (buf.getD (off + pos + 5) 0) <<< 16 +
      (buf.getD (off + pos + 6) 0) <<< 8 + buf.getD (off + pos + 7) 0)
    (hwin : pos + 8 + L ≤ len)
    (hbuf : off + pos + 8 + L ≤ buf.length) :
    IffChunkReader.readChunk ⟨buf, off, len, pos⟩ =
      Except.ok
        (⟨(buf.take (off + pos + 4)).drop (off + pos), L, ⟨buf, off + pos + 8, L, 0⟩⟩,
         ⟨buf, off, len,
           if (pos + 8 + L) % 2 = 1 ∧ pos + 8 + L ≠ len ∧
               buf.getD (off + (pos + 8 + L)) 0 = 0
           then pos + 8 + L + 1 else pos + 8 + L⟩) := by
  have hid : ((buf.take (off + pos + 4)).drop (off + pos)).length = 4 := by
    rw [List.length_drop, List.length_take]
    omega
  unfold IffChunkReader.readChunk IffChunkReader.readBytes
  dsimp only
  rw [hid]
  unfold IffChunkReader.readUint32
  dsimp only
  rw [if_neg (by omega)]
  dsimp only
  have harith1 : off + (pos + 4) = off + pos + 4 := by omega
  have harith2 : off + pos + 4 + 1 = off + pos + 5 := by omega
  have harith3 : off + pos + 4 + 2 = off + pos + 6 := by omega
  have harith4 : off + pos + 4 + 3 = off + pos + 7 := by omega
  rw [harith1, harith2, harith3, harith4, ← hL]
  unfold IffChunkReader.create
  rw [if_neg (by omega)]
  dsimp only
  rw [show pos + 4 + 4 = pos + 8 from by omega,
    show off + (pos + 8) = off + pos + 8 from by omega]
  by_cases hpad : (pos + 8 + L) % 2 = 1 ∧ ¬ pos + 8 + L = len
  · rw [if_pos hpad, if_neg (by omega)]
    by_cases hz : buf.getD (off + (pos + 8 + L)) 0 = 0
    · rw [if_pos hz, if_pos ⟨hpad.1, hpad.2, hz⟩]
    · rw [if_neg hz, if_neg (fun hc => hz hc.2.2)]
  · rw [if_neg hpad, if_neg (fun hc => hpad ⟨hc.1, hc.2.1⟩)]

/-- **C4** (counterexample): with 6 planes and current color 0, the raw value
31 has command bits 1 and payload 15 (scaled value 239): the code patches the
**blue** byte, producing `0x0000EF00`, whereas the claimed green-first order
would produce `0x00EF0000`. -/
theorem c4_counterexample :
    hamStep [] 6 0 31 = 0x0000EF00 ∧ hamStepClaimOrder [] 6 0 31 = 0x00EF0000 ∧
    hamStep [] 6 0 31 ≠ hamStepClaimOrder [] 6 0 31 := by
  refine ⟨by decide, by decide, by decide⟩

/-- Witness for C4: the amended theorem applied with 6 planes to the current
color `(1, 2, 3, 4)` at raw values 31 (command 1, blue), 47 (command 2, red),
63 (command 3, green) and the in-range value 1 (palette lookup). -/
theorem c4_witness :
    hamStep [7, 9] 6 (pack4 1 2 3 4) 31 = pack4 1 2 239 4 ∧
    hamStep [7, 9] 6 (pack4 1 2 3 4) 47 = pack4 239 2 3 4 ∧
    hamStep [7, 9] 6 (pack4 1 2 3 4) 63 = pack4 1 239 3 4 ∧
    hamStep [7, 9] 6 (pack4 1 2 3 4) 1 = 9 := by
  refine ⟨?_, ?_, ?_, ?_⟩
  · exact (((c4_hamStep_amended [7, 9] 6 1 2 3 4 31 (by decide) (by decide)
      (by decide) (by decide)).2 (by decide)).1 (by decide)).trans (by decide)
  · exact (((c4_hamStep_amended [7, 9] 6 1 2 3 4 47 (by decide) (by decide)
      (by decide) (by decide)).2 (by decide)).2.1 (by decide)).trans (by decide)
  · exact (((c4_hamStep_amended [7, 9] 6 1 2 3 4 63 (by decide) (by decide)
      (by decide) (by decide)).2 (by decide)).2.2 (by decide) (by decide)).trans
      (by decide)
  · exact ((c4_hamStep_amended [7, 9] 6 1 2 3 4 1 (by decide) (by decide)
      (by decide) (by decide)).1 (by decide)).trans (by decide)

/-- Witness for C8: a 10-byte buffer holding the tag `ABCD`, length 1 and
the payload byte 9.  When the trailing byte is 0 the reader lands at an odd
position, probes it and skips to 10; when it is 7 the probe sees nonzero and
the position stays 9 — silently in both cases. -/
theorem c8_witness :
    IffChunkReader.readChunk ⟨[65, 66, 67, 68, 0, 0, 0, 1, 9, 0], 0, 10, 0⟩ =
      Except.ok (⟨[65, 66, 67, 68], 1, ⟨[65, 66, 67, 68, 0, 0, 0, 1, 9, 0], 8, 1, 0⟩⟩,
        ⟨[65, 66, 67, 68, 0, 0, 0, 1, 9, 0], 0, 10, 10⟩) ∧
    IffChunkReader.readChunk ⟨[65, 66, 67, 68, 0, 0, 0, 1, 9, 7], 0, 10, 0⟩ =
      Except.ok (⟨[65, 66, 67, 68], 1, ⟨[65, 66, 67, 68, 0, 0, 0, 1, 9, 7], 8, 1, 0⟩⟩,
        ⟨[65, 66, 67, 68, 0, 0, 0, 1, 9, 7], 0, 10, 9⟩) := by
  constructor
  · exact (c8_readChunk_pad_probe [65, 66, 67, 68, 0, 0, 0, 1, 9, 0] 0 10 0 1
      (by decide) (by decide) (by decide)).trans (by rfl)
  · exact (c8_readChunk_pad_probe [65, 66, 67, 68, 0, 0, 0, 1, 9, 7] 0 10 0 1
      (by decide) (by decide) (by decide)).trans (by rfl)

end Planar

